import Mathlib

/-!
Verification of the daily_digest dependency-graph engine and scheduler.

This file shallowly embeds the Python sources (`models.py`, `graph_manager.py`,
`f1b_optimizer.py`) into Lean.  Python floats (`progress`, `volatility`,
`trigger_process`) are modelled as rationals, Python dicts as insertion-ordered
association lists, the networkx `DiGraph` as an explicit node list plus edge
list, and the JSON file written by `save_file` as a `stored` snapshot field.
Timestamps (`datetime.now()`) are modelled by an explicit `now : Nat` argument.
-/

namespace DailyDigest

/-- `models.TeamType`. -/
inductive TeamType where
  | hardware
  | software
deriving DecidableEq

/-- `models.TaskStatus`. -/
inductive TaskStatus where
  | done
  | waiting_for_validation
  | in_progress
  | pending
  | blocked
deriving DecidableEq

/-- `models.TaskCategory`. -/
inductive TaskCategory where
  | critical
  | infrastructure
  | support
deriving DecidableEq

/-- `models.MileStone` (the unused `is_reached` flag is kept for fidelity). -/
structure MileStone where
  name : String
  trigger_process : ℚ
  is_reached : Bool
deriving DecidableEq

/-- `models.Task`, restricted to the fields the graph manager and optimizer
read or write (`assigner`, `component_id`, `stage`, `expected_duration`,
`switch_cost`, `target_support_id`, `created_at` are never consulted by the
code under verification). -/
structure Task where
  id : String
  name : String
  team : TeamType
  category : TaskCategory
  dependencies : List String
  status : TaskStatus
  progress : ℚ
  volatility : ℚ
  milestone : List MileStone
  updated_at : Nat
deriving DecidableEq

/-- Lookup in an insertion-ordered association list (Python `dict` access /
`dict.get`). -/
def lookupTask : List (String × Task) → String → Option Task
  | [], _ => none
  | (k, t) :: rest, id => if k = id then some t else lookupTask rest id

/-- Python `dict` assignment `tasks[id] = t`: replace in place if the key is
present, append otherwise. -/
def setTask : List (String × Task) → String → Task → List (String × Task)
  | [], id, t => [(id, t)]
  | (k, u) :: rest, id, t =>
      if k = id then (id, t) :: rest else (k, u) :: setTask rest id t

/-- The state of `graph_manager.DependencyGraph`: the networkx digraph
(`nodes`, `edges`), the task map, and the last snapshot written by
`save_file` (`stored`). -/
structure DependencyGraph where
  nodes : List String
  edges : List (String × String)
  tasks : List (String × Task)
  stored : List (String × Task)
deriving DecidableEq

/-- networkx `add_node`: a no-op when the node is already present. -/
def addNode (ns : List String) (n : String) : List String :=
  if n ∈ ns then ns else ns ++ [n]

/-- networkx `add_edge a b`: inserts missing endpoints as nodes and the edge
if absent. -/
def addEdge (ns : List String) (es : List (String × String)) (a b : String) :
    List String × List (String × String) :=
  (addNode (addNode ns a) b, if (a, b) ∈ es then es else es ++ [(a, b)])

/-- Successors of a node in the edge list (`graph.successors`). -/
def successors (es : List (String × String)) (n : String) : List String :=
  es.filterMap fun e => if e.1 = n then some e.2 else none

/-- Predecessors of a node in the edge list (`graph.predecessors`). -/
def predecessors (es : List (String × String)) (n : String) : List String :=
  es.filterMap fun e => if e.2 = n then some e.1 else none

/-- Fuel-bounded reachability: `reachN es fuel a b` holds when there is a
nonempty edge path from `a` to `b` of length at most `fuel`. -/
def reachN (es : List (String × String)) : Nat → String → String → Bool
  | 0, _, _ => false
  | Nat.succ fuel, a, b =>
      es.any fun e => decide (e.1 = a) && (decide (e.2 = b) || reachN es fuel e.2 b)

/-- Model of `nx.find_cycle` succeeding: some node lies on a directed cycle.
Fuel `es.length` suffices because a shortest closed walk never repeats an
edge. -/
def hasCycle (es : List (String × String)) : Bool :=
  (es.map Prod.fst).any fun n => reachN es es.length n n

/-- `DependencyGraph.add_task` (graph_manager.py lines 15-36): build a
candidate graph, reject if it has a cycle, otherwise commit and persist.
Returns the new state and the Python boolean result. -/
def add_task (g : DependencyGraph) (task : Task) : DependencyGraph × Bool :=
  let ns0 := addNode g.nodes task.id
  let cand := task.dependencies.foldl
    (fun (p : List String × List (String × String)) dep =>
      if (lookupTask g.tasks dep).isSome then addEdge p.1 p.2 dep task.id else p)
    (ns0, g.edges)
  if hasCycle cand.2 then (g, false)
  else
    let ts := setTask g.tasks task.id task
    ({ nodes := cand.1, edges := cand.2, tasks := ts, stored := ts }, true)

/-- The milestone clause of `get_ready_tasks` (graph_manager.py lines 81-84):
the first milestone exists, its `trigger_process` is truthy (nonzero), and
progress has reached it. -/
def milestoneReached (t : Task) : Bool :=
  match t.milestone with
  | [] => false
  | m :: _ => !(decide (m.trigger_process = 0)) && decide (m.trigger_process ≤ t.progress)

/-- One predecessor check of `get_ready_tasks` (graph_manager.py lines 70-88):
a missing predecessor blocks; otherwise DONE, WAITING_FOR_VALIDATION, or a
reached first milestone satisfies it. -/
def depOk (tasks : List (String × Task)) (dep : String) : Bool :=
  match lookupTask tasks dep with
  | none => false
  | some d =>
      decide (d.status = TaskStatus.done) ||
      decide (d.status = TaskStatus.waiting_for_validation) ||
      milestoneReached d

/-- The per-node body of the `get_ready_tasks` loop. -/
def readyCheck (g : DependencyGraph) (id : String) : Option Task :=
  match lookupTask g.tasks id with
  | none => none
  | some t =>
      if t.status = TaskStatus.done ∨ t.status = TaskStatus.in_progress ∨
         t.status = TaskStatus.waiting_for_validation then none
      else if (predecessors g.edges id).all (depOk g.tasks) then some t
      else none

/-- `DependencyGraph.get_ready_tasks` (graph_manager.py lines 50-94). -/
def get_ready_tasks (g : DependencyGraph) : List Task :=
  g.nodes.filterMap (readyCheck g)

/-- `TaskStatus(status_str)`: parse the enum value string, `none` models the
`ValueError`. -/
def statusOfString (s : String) : Option TaskStatus :=
  if s = "done" then some TaskStatus.done
  else if s = "waiting_for_validation" then some TaskStatus.waiting_for_validation
  else if s = "in_progress" then some TaskStatus.in_progress
  else if s = "pending" then some TaskStatus.pending
  else if s = "blocked" then some TaskStatus.blocked
  else none

/-- One software-successor ("validator") check used by `update_task_progress`:
a missing or non-SOFTWARE successor is vacuously fine, a SOFTWARE successor
must be DONE. -/
def swEntryDone (tasks : List (String × Task)) (s : String) : Bool :=
  match lookupTask tasks s with
  | none => true
  | some t => !(decide (t.team = TeamType.software)) || decide (t.status = TaskStatus.done)

/-- `all_validators_done` of `update_task_progress` (graph_manager.py lines
110-123 and 141-154): every SOFTWARE graph-successor of `id` is DONE. -/
def swValidatorsDone (tasks : List (String × Task)) (es : List (String × String))
    (id : String) : Bool :=
  (successors es id).all (swEntryDone tasks)

/-- One iteration of the software-completion cascade (graph_manager.py lines
137-157): a HARDWARE dependency whose SOFTWARE successors are all DONE is
promoted to DONE with volatility 0. -/
def promoteStep (es : List (String × String)) (acc : List (String × Task))
    (dep : String) : List (String × Task) :=
  match lookupTask acc dep with
  | none => acc
  | some hw =>
      if hw.team = TeamType.hardware then
        if swValidatorsDone acc es dep then
          setTask acc dep { hw with status := TaskStatus.done, volatility := 0 }
        else acc
      else acc

/-- `DependencyGraph.update_task_progress` (graph_manager.py lines 96-162).
Progress is written before status parsing; an invalid status string abandons
the rest of the update but the progress write is kept and persisted.  The
validator check runs on the map in which the task already carries its new
status, matching the in-place mutation order of the Python code. -/
def update_task_progress (g : DependencyGraph) (id : String) (prog : ℚ)
    (statusStr : String) (now : Nat) : DependencyGraph :=
  match lookupTask g.tasks id with
  | none => g
  | some t0 =>
      let t1 : Task := { t0 with progress := prog }
      let ts1 := setTask g.tasks id t1
      match statusOfString statusStr with
      | none => { g with tasks := ts1, stored := ts1 }
      | some ns =>
          let t2 : Task := { t1 with status := ns }
          let tsA := setTask ts1 id t2
          let tsB :=
            if ns = TaskStatus.done ∧ t2.team = TeamType.hardware then
              if swValidatorsDone tsA g.edges id then
                setTask tsA id { t2 with status := TaskStatus.done, volatility := 0 }
              else
                setTask tsA id { t2 with status := TaskStatus.waiting_for_validation }
            else tsA
          let tsC :=
            if ns = TaskStatus.done ∧ t2.team = TeamType.software then
              let tsB1 := setTask tsB id { t2 with volatility := 0 }
              t2.dependencies.foldl (promoteStep g.edges) tsB1
            else tsB
          let tsD :=
            match lookupTask tsC id with
            | some tf => setTask tsC id { tf with updated_at := now }
            | none => tsC
          { g with tasks := tsD, stored := tsD }

/-- `DependencyGraph.update_task_volatility` (graph_manager.py lines 164-170). -/
def update_task_volatility (g : DependencyGraph) (id : String) (v : ℚ) :
    DependencyGraph :=
  match lookupTask g.tasks id with
  | none => g
  | some t =>
      let ts := setTask g.tasks id { t with volatility := v }
      { g with tasks := ts, stored := ts }

/-- The reset applied to one descendant (graph_manager.py lines 179-185). -/
def resetStep (now : Nat) (st : List (String × Task) × List String)
    (d : String) : List (String × Task) × List String :=
  match lookupTask st.1 d with
  | none => st
  | some t =>
      if 0 < t.progress ∨ t.status = TaskStatus.done then
        (setTask st.1 d { t with progress := 0, status := TaskStatus.pending,
                                 updated_at := now },
         st.2 ++ [t.id])
      else st

/-- `nx.descendants`: the nodes other than `a` reachable from `a`. -/
def descendantsOf (g : DependencyGraph) (a : String) : List String :=
  g.nodes.filter fun m => !(decide (m = a)) && reachN g.edges g.edges.length a m

/-- `DependencyGraph.reset_downstream_tasks` (graph_manager.py lines 172-189).
`none` models the networkx error raised when the node is absent; on success
returns the new state and the list of reset ids.  `save_file` runs only when
the list is nonempty. -/
def reset_downstream_tasks (g : DependencyGraph) (a : String) (now : Nat) :
    Option (DependencyGraph × List String) :=
  if a ∈ g.nodes then
    let r := (descendantsOf g a).foldl (resetStep now) (g.tasks, [])
    if r.2 = [] then some ({ g with tasks := r.1 }, r.2)
    else some ({ g with tasks := r.1, stored := r.1 }, r.2)
  else none

/-- `Optimizer.classify_task_direction` (f1b_optimizer.py lines 10-18). -/
def classify_task_direction (t : Task) : String :=
  if t.category = TaskCategory.support then "SUPPORT"
  else if t.team = TeamType.hardware then "FORWARD"
  else "BACKWARD"

/-- Contribution of one declared dependency to the scrap risk score
(f1b_optimizer.py lines 34-37): a missing dependency contributes nothing. -/
def scrapContribution (tasks : List (String × Task)) (dep : String) : ℚ :=
  match lookupTask tasks dep with
  | none => 0
  | some dt => dt.volatility * 100

/-- `Optimizer.calculate_scrap_risk_score` (f1b_optimizer.py lines 20-39). -/
def calculate_scrap_risk_score (g : DependencyGraph) (t : Task) : ℚ :=
  if t.category = TaskCategory.infrastructure then 0
  else if t.team = TeamType.software then 0
  else
    min (t.dependencies.foldl
          (fun acc dep =>
            match lookupTask g.tasks dep with
            | none => acc
            | some dt => acc + dt.volatility * 100) 0)
        100

/-- `Optimizer.calculate_risk_inventory` (f1b_optimizer.py lines 41-54). -/
def calculate_risk_inventory (g : DependencyGraph) : ℚ :=
  g.tasks.foldl
    (fun acc p =>
      if p.2.team = TeamType.hardware then
        if p.2.status = TaskStatus.done then acc
        else if p.2.category = TaskCategory.support ∨
                p.2.category = TaskCategory.infrastructure then acc
        else acc + p.2.volatility
      else acc) 0

/-- `Optimizer.calculate_downstream_dependencies` (f1b_optimizer.py lines
56-66): the number of stored tasks that declare `id` as a dependency and are
not DONE. -/
def calculate_downstream_dependencies (g : DependencyGraph) (id : String) : Nat :=
  (g.tasks.filter fun p =>
    decide (id ∈ p.2.dependencies) && !(decide (p.2.status = TaskStatus.done))).length

/-- The key used to sort the backward queue (f1b_optimizer.py lines 98-108):
the maximal downstream impact over the HARDWARE dependencies of a software
task, starting from -1. -/
def get_target_hw_impact (g : DependencyGraph) (sw : Task) : Int :=
  sw.dependencies.foldl
    (fun m hwId =>
      match lookupTask g.tasks hwId with
      | none => m
      | some hw =>
          if hw.team = TeamType.hardware then
            if m < (calculate_downstream_dependencies g hwId : Int) then
              (calculate_downstream_dependencies g hwId : Int)
            else m
          else m) (-1)

/-- Head of a Python stable descending sort: the first element attaining the
maximal key.  `sorted(queue, key=f, reverse=True)[0]` keeps the original order
of equal keys, so its head is the earliest maximum. -/
def pickMaxFirst (f : Task → Int) : List Task → Option Task
  | [] => none
  | t :: ts => some (ts.foldl (fun best x => if f best < f x then x else best) t)

/-- `Optimizer.get_swarming_backward_task` (f1b_optimizer.py lines 91-111). -/
def get_swarming_backward_task (g : DependencyGraph) (queue : List Task) :
    Option Task :=
  pickMaxFirst (get_target_hw_impact g) queue

/-- The target-hardware-name loop in `get_swarming_recommendation` and
`run_scheduler`: the name of the first dependency present in the store (any
team), with a fallback default. -/
def firstDepName (g : DependencyGraph) (deps : List String) (dflt : String) :
    String :=
  match deps with
  | [] => dflt
  | d :: rest =>
      match lookupTask g.tasks d with
      | some hw => hw.name
      | none => firstDepName g rest dflt

/-- The backward queue built by `get_swarming_recommendation` (f1b_optimizer.py
lines 73-76): the ready tasks classified BACKWARD, in order. -/
def backwardReady (g : DependencyGraph) : List Task :=
  (get_ready_tasks g).filter fun t => classify_task_direction t = "BACKWARD"

/-- `Optimizer.get_swarming_recommendation` (f1b_optimizer.py lines 68-89).
The quote characters of the recommendation f-string are elided. -/
def get_swarming_recommendation (g : DependencyGraph) :
    Option (String × String) :=
  match get_swarming_backward_task g (backwardReady g) with
  | none => none
  | some sw =>
      let hwName := firstDepName g sw.dependencies "Hardware"
      some (sw.name, "Build Test Jig for " ++ sw.name ++ " (Validates " ++ hwName ++ ")")

/-- One report line of `run_scheduler`; each constructor mirrors one
`report.append` in f1b_optimizer.py, carrying the interpolated data of the
corresponding f-string (static text elided). -/
inductive RLine where
  | riskSummary (inventory budget : ℚ) (exceeded : Bool)
  | backwardHeader
  | backwardEntry (nm tid : String) (microBatch : Bool)
  | supportHeader
  | supportEntry (nm tid : String)
  | swarmAlert
  | swarmTarget (swName swId hwName : String)
  | swarmRecommend (swId hwName : String)
  | forwardBlockedHeader
  | forwardBlockedReason
  | forwardHeader
  | forwardHold (nm tid : String) (impact : Nat) (risk : ℚ)
  | forwardTentative (nm tid : String) (impact : Nat) (risk : ℚ) (micro : Bool)
  | forwardStart (nm tid : String) (impact : Nat) (micro : Bool)
  | infraHeader
  | infraEntry (nm tid : String)
  | blank
  | systemIdle
deriving DecidableEq

/-- `report[-1].startswith("\u{1F512}")`: no format string appended by
`run_scheduler` begins with the lock emoji (they begin with the status icon,
`[`, spaces, or are empty), so this is false for every line. -/
def lineStartsWithLock (_ : RLine) : Bool := false

/-- Whether a line belongs to the INFRASTRUCTURE lane. -/
def isInfraLine : RLine → Bool
  | RLine.infraHeader => true
  | RLine.infraEntry _ _ => true
  | _ => false

/-- Whether a line is part of a non-blocked FORWARD lane (the header or a
per-task entry). -/
def isForwardLaneEntry : RLine → Bool
  | RLine.forwardHeader => true
  | RLine.forwardHold _ _ _ _ => true
  | RLine.forwardTentative _ _ _ _ _ => true
  | RLine.forwardStart _ _ _ _ => true
  | _ => false

/-- The micro-batch flag (f1b_optimizer.py lines 150-153 and 195-198): some
stored dependency has progress below 1. -/
def microBatch (tasks : List (String × Task)) (t : Task) : Bool :=
  t.dependencies.any fun p =>
    match lookupTask tasks p with
    | some d => decide (d.progress < 1)
    | none => false

/-- The queue partition loop of `run_scheduler` (f1b_optimizer.py lines
124-134), in order: backward, support, forward, infrastructure.  The final
`elif task.category == INFRASTRUCTURE` only runs when the direction is none
of the three strings `classify_task_direction` can produce. -/
def partitionReady (ready : List Task) :
    List Task × List Task × List Task × List Task :=
  ready.foldl
    (fun acc task =>
      let d := classify_task_direction task
      if d = "BACKWARD" then (acc.1 ++ [task], acc.2.1, acc.2.2.1, acc.2.2.2)
      else if d = "SUPPORT" then (acc.1, acc.2.1 ++ [task], acc.2.2.1, acc.2.2.2)
      else if d = "FORWARD" then (acc.1, acc.2.1, acc.2.2.1 ++ [task], acc.2.2.2)
      else if task.category = TaskCategory.infrastructure then
        (acc.1, acc.2.1, acc.2.2.1, acc.2.2.2 ++ [task])
      else acc)
    ([], [], [], [])

/-- The backward queue assembled by `run_scheduler`. -/
def backwardQueueOf (g : DependencyGraph) : List Task :=
  (partitionReady (get_ready_tasks g)).1

/-- The support queue assembled by `run_scheduler`. -/
def supportQueueOf (g : DependencyGraph) : List Task :=
  (partitionReady (get_ready_tasks g)).2.1

/-- The forward queue assembled by `run_scheduler`. -/
def forwardQueueOf (g : DependencyGraph) : List Task :=
  (partitionReady (get_ready_tasks g)).2.2.1

/-- The (unreachable) infrastructure queue assembled by `run_scheduler`. -/
def infraQueueOf (g : DependencyGraph) : List Task :=
  (partitionReady (get_ready_tasks g)).2.2.2

/-- `queue.sort(key=lambda t: -impact(t.id))`: Python stable sort, descending
by downstream impact; insertion sort with this relation places a task before
the later-queued tasks of equal impact, matching stability. -/
def sortByImpactDesc (g : DependencyGraph) (l : List Task) : List Task :=
  List.insertionSort
    (fun a b => calculate_downstream_dependencies g b.id ≤
                calculate_downstream_dependencies g a.id) l

/-- The forward-lane line for one task (f1b_optimizer.py lines 191-209): the
three `report.append` branches keyed by scrap risk, each carrying its
f-string's interpolated data. -/
def forwardLine (g : DependencyGraph) (t : Task) : RLine :=
  let impact := calculate_downstream_dependencies g t.id
  let risk := calculate_scrap_risk_score g t
  let mb := microBatch g.tasks t
  if 80 < risk then RLine.forwardHold t.name t.id impact risk
  else if 50 < risk then RLine.forwardTentative t.name t.id impact risk mb
  else RLine.forwardStart t.name t.id impact mb

/-- The BACKWARD section of `run_scheduler` (f1b_optimizer.py lines 144-156). -/
def backwardLines (g : DependencyGraph) (bq : List Task) : List RLine :=
  if bq = [] then []
  else
    RLine.backwardHeader ::
      (sortByImpactDesc g bq).map
        (fun t => RLine.backwardEntry t.name t.id (microBatch g.tasks t)) ++
    [RLine.blank]

/-- The SUPPORT section of `run_scheduler` (f1b_optimizer.py lines 158-179). -/
def supportLines (g : DependencyGraph) (bq sq : List Task) (exceeded : Bool) :
    List RLine :=
  if sq = [] ∧ exceeded = false then []
  else
    (RLine.supportHeader :: sq.map (fun t => RLine.supportEntry t.name t.id)) ++
    (if exceeded = true ∧ sq = [] ∧ bq ≠ [] then
       match get_swarming_backward_task g bq with
       | some sw =>
           [RLine.swarmAlert,
            RLine.swarmTarget sw.name sw.id
              (firstDepName g sw.dependencies "Unknown HW"),
            RLine.swarmRecommend sw.id
              (firstDepName g sw.dependencies "Unknown HW")]
       | none => []
     else []) ++
    [RLine.blank]

/-- The FORWARD section of `run_scheduler` (f1b_optimizer.py lines 181-211):
replaced wholesale by the two blocked lines when the risk budget is full. -/
def forwardLines (g : DependencyGraph) (fq : List Task) (exceeded : Bool) :
    List RLine :=
  if fq = [] then []
  else
    (if exceeded then [RLine.forwardBlockedHeader, RLine.forwardBlockedReason]
     else RLine.forwardHeader :: (sortByImpactDesc g fq).map (forwardLine g)) ++
    [RLine.blank]

/-- The INFRASTRUCTURE section of `run_scheduler` (f1b_optimizer.py lines
213-218), guarded by `infrastructure_queue and (not report or
report[-1].startswith(lock))`. -/
def infraLines (iq : List Task) (report4 : List RLine) : List RLine :=
  if iq ≠ [] ∧ (report4 = [] ∨
      (report4.getLast?.map lineStartsWithLock).getD false = true) then
    (RLine.infraHeader :: iq.map (fun t => RLine.infraEntry t.name t.id)) ++
    [RLine.blank]
  else []

/-- `Optimizer.run_scheduler` (f1b_optimizer.py lines 113-223), with the text
rendering abstracted into `RLine` values; `budget` is
`self.max_risk_inventory`. -/
def run_scheduler (g : DependencyGraph) (budget : ℚ) : List RLine :=
  let inventory := calculate_risk_inventory g
  let exceeded := decide (budget ≤ inventory)
  let report4 :=
    [RLine.riskSummary inventory budget exceeded] ++
    backwardLines g (backwardQueueOf g) ++
    supportLines g (backwardQueueOf g) (supportQueueOf g) exceeded ++
    forwardLines g (forwardQueueOf g) exceeded
  let report5 := report4 ++ infraLines (infraQueueOf g) report4
  if report5 = [] then [RLine.systemIdle] else report5

/-! ### Concrete fixtures

Small states used by the witness and counterexample theorems below; each is
written out literally (with `mkRat` values, which evaluate definitionally)
and is the committed state a chain of `add_task` calls produces, as the
`..._from_addTask` theorems later verify. -/

/-- Builder matching the `Task(...)` constructor calls of test.py. -/
def mkTask (id nm : String) (team : TeamType) (cat : TaskCategory)
    (deps : List String) (st : TaskStatus) (prog vol : ℚ)
    (ms : List MileStone) : Task :=
  { id := id, name := nm, team := team, category := cat, dependencies := deps,
    status := st, progress := prog, volatility := vol, milestone := ms,
    updated_at := 0 }

/-- A fresh `DependencyGraph()` over an absent storage file. -/
def gEmpty : DependencyGraph := { nodes := [], edges := [], tasks := [], stored := [] }

def tH : Task :=
  mkTask "H" "Leg" TeamType.hardware TaskCategory.critical [] TaskStatus.pending 0 (mkRat 9 10) []

def tS1 : Task :=
  mkTask "S1" "FW1" TeamType.software TaskCategory.critical ["H"] TaskStatus.pending 0 (mkRat 1 10) []

def tS2 : Task :=
  mkTask "S2" "FW2" TeamType.software TaskCategory.critical ["H"] TaskStatus.pending 0 (mkRat 1 10) []

/-- A hardware task with two software validators. -/
def gHSS : DependencyGraph :=
  { nodes := ["H", "S1", "S2"], edges := [("H", "S1"), ("H", "S2")],
    tasks := [("H", tH), ("S1", tS1), ("S2", tS2)],
    stored := [("H", tH), ("S1", tS1), ("S2", tS2)] }

/-- `gHSS` after `S1` was completed: `H` is still PENDING at progress 0. -/
def gC10 : DependencyGraph := update_task_progress gHSS "S1" 1 "done" 2

def tP : Task :=
  mkTask "P" "P" TeamType.hardware TaskCategory.critical [] TaskStatus.pending (mkRat 1 2) 0
    [{ name := "m", trigger_process := 0, is_reached := false }]

def tT : Task :=
  mkTask "T" "T" TeamType.software TaskCategory.critical ["P"] TaskStatus.pending 0 0 []

/-- A predecessor whose first milestone has `trigger_process = 0`. -/
def gC1 : DependencyGraph :=
  { nodes := ["P", "T"], edges := [("P", "T")],
    tasks := [("P", tP), ("T", tT)], stored := [("P", tP), ("T", tT)] }

def tA : Task :=
  mkTask "A" "A" TeamType.hardware TaskCategory.critical [] TaskStatus.done 1 (mkRat 9 10) []

def tB : Task :=
  mkTask "B" "B" TeamType.hardware TaskCategory.critical ["A"] TaskStatus.in_progress (mkRat 1 2) (mkRat 1 10) []

def tC : Task :=
  mkTask "C" "C" TeamType.software TaskCategory.critical ["B"] TaskStatus.pending (mkRat 1 4) 0 []

/-- A dependency chain A -> B -> C with B and C at positive progress. -/
def gChain : DependencyGraph :=
  { nodes := ["A", "B", "C"], edges := [("A", "B"), ("B", "C")],
    tasks := [("A", tA), ("B", tB), ("C", tC)],
    stored := [("A", tA), ("B", tB), ("C", tC)] }

/-- The state `reset_downstream_tasks` produces on `gChain` at time 9. -/
def gReset : DependencyGraph :=
  ((reset_downstream_tasks gChain "A" 9).getD (gChain, [])).1

def tHd : Task :=
  mkTask "H" "Leg" TeamType.hardware TaskCategory.critical [] TaskStatus.done 1 0 []

def tS : Task :=
  mkTask "S" "FW" TeamType.software TaskCategory.critical ["H"] TaskStatus.pending 0 0 []

/-- A completed hardware task with a ready software validator. -/
def gSw : DependencyGraph :=
  { nodes := ["H", "S"], edges := [("H", "S")],
    tasks := [("H", tHd), ("S", tS)], stored := [("H", tHd), ("S", tS)] }

/-- Re-inserting id `A` with a dependency on `B` closes a cycle in `gChain`. -/
def tA2 : Task :=
  mkTask "A" "A" TeamType.hardware TaskCategory.critical ["B"] TaskStatus.pending 0 0 []

/-- Invariant of the software-completion cascade of `update_task_progress`:
relative to the map `base` it started from, every entry is either untouched
or promoted to DONE with volatility 0. -/
def PromoInv (base acc : List (String × Task)) : Prop :=
  ∀ k, lookupTask acc k = lookupTask base k ∨
    ∃ u, lookupTask base k = some u ∧
      lookupTask acc k = some { u with status := TaskStatus.done, volatility := 0 }

/-! ### Reachability theory

`Reaches E a b` is the semantic transitive closure of the edge list;
`reachN E E.length` decides it, because any walk can be shortened, by cutting
between two occurrences of a repeated edge, to one of length at most
`E.length`.  This justifies the fuel bound used in `hasCycle` and
`descendantsOf`. -/

/-- A nonempty directed path in the edge list. -/
inductive Reaches (E : List (String × String)) : String → String → Prop where
  | base {a b : String} : (a, b) ∈ E → Reaches E a b
  | head {a b c : String} : (a, b) ∈ E → Reaches E b c → Reaches E a c

/-- `WalkFT E a b w`: `w` is a nonempty chain of edges of `E` from `a` to `b`. -/
def WalkFT (E : List (String × String)) : String → String → List (String × String) → Prop
  | _, _, [] => False
  | a, b, [e] => e ∈ E ∧ e.1 = a ∧ e.2 = b
  | a, b, e :: e2 :: w => e ∈ E ∧ e.1 = a ∧ WalkFT E e.2 b (e2 :: w)

theorem reaches_to_walk {E : List (String × String)} {a b : String}
    (h : Reaches E a b) : ∃ w, WalkFT E a b w := by
  induction h with
  | base hmem => exact ⟨[(_, _)], hmem, rfl, rfl⟩
  | head hmem _ ih =>
      obtain ⟨w, hw⟩ := ih
      cases w with
      | nil => exact absurd hw (by simp [WalkFT])
      | cons e w' => exact ⟨(_, _) :: e :: w', hmem, rfl, hw⟩

theorem walk_to_reaches {E : List (String × String)} :
    ∀ (w : List (String × String)) (a b : String), WalkFT E a b w → Reaches E a b := by
  intro w
  induction w with
  | nil => intro a b h; exact absurd h (by simp [WalkFT])
  | cons e w ih =>
      intro a b h
      cases w with
      | nil =>
          obtain ⟨he, h1, h2⟩ := h
          refine Reaches.base ?_
          have : e = (a, b) := by
            cases e; simp_all
          exact this ▸ he
      | cons e2 w' =>
          obtain ⟨he, h1, h2⟩ := h
          refine Reaches.head (show (a, e.2) ∈ E from ?_) (ih e.2 b h2)
          have : e = (a, e.2) := by cases e; simp_all
          exact this ▸ he

theorem walk_to_reachN {E : List (String × String)} :
    ∀ (w : List (String × String)) (a b : String) (fuel : Nat),
      WalkFT E a b w → w.length ≤ fuel → reachN E fuel a b = true := by
  intro w
  induction w with
  | nil => intro a b fuel h; exact absurd h (by simp [WalkFT])
  | cons e w ih =>
      intro a b fuel h hlen
      cases fuel with
      | zero => simp at hlen
      | succ f =>
          simp only [reachN, List.any_eq_true]
          cases w with
          | nil =>
              obtain ⟨he, h1, h2⟩ := h
              exact ⟨e, he, by simp [h1, h2]⟩
          | cons e2 w' =>
              obtain ⟨he, h1, h2⟩ := h
              have := ih e.2 b f h2 (by simpa using Nat.lt_succ_iff.mp (by simpa using hlen))
              exact ⟨e, he, by simp [h1, this]⟩

theorem reachN_to_reaches {E : List (String × String)} :
    ∀ (fuel : Nat) (a b : String), reachN E fuel a b = true → Reaches E a b := by
  intro fuel
  induction fuel with
  | zero => intro a b h; simp [reachN] at h
  | succ f ih =>
      intro a b h
      simp only [reachN, List.any_eq_true, Bool.and_eq_true, Bool.or_eq_true,
        decide_eq_true_eq] at h
      obtain ⟨e, he, h1, h2⟩ := h
      rcases h2 with h2 | h2
      · refine Reaches.base ?_
        have : e = (a, b) := by cases e; simp_all
        exact this ▸ he
      · refine Reaches.head (show (a, e.2) ∈ E from ?_) (ih e.2 b h2)
        have : e = (a, e.2) := by cases e; simp_all
        exact this ▸ he

theorem exists_dup_split {α : Type} [DecidableEq α] :
    ∀ (l : List α), ¬ l.Nodup →
      ∃ (x : α) (l1 l2 l3 : List α), l = l1 ++ x :: l2 ++ x :: l3 := by
  intro l
  induction l with
  | nil => intro h; exact absurd List.nodup_nil h
  | cons x xs ih =>
      intro h
      by_cases hx : x ∈ xs
      · obtain ⟨s, t, hst⟩ := List.append_of_mem hx
        exact ⟨x, [], s, t, by simp [hst]⟩
      · have : ¬ xs.Nodup := fun hn => h (List.nodup_cons.mpr ⟨hx, hn⟩)
        obtain ⟨y, l1, l2, l3, hl⟩ := ih this
        exact ⟨y, x :: l1, l2, l3, by simp [hl]⟩

theorem length_le_of_nodup_subset {α : Type} [DecidableEq α] {l L : List α}
    (h : l.Nodup) (hsub : ∀ x ∈ l, x ∈ L) : l.length ≤ L.length := by
  calc l.length = l.toFinset.card := (List.toFinset_card_of_nodup h).symm
    _ ≤ L.toFinset.card := by
        refine Finset.card_le_card ?_
        intro x hx
        simp only [List.mem_toFinset] at hx ⊢
        exact hsub x hx
    _ ≤ L.length := L.toFinset_card_le

theorem walk_edges_mem {E : List (String × String)} :
    ∀ (w : List (String × String)) (a b : String), WalkFT E a b w →
      ∀ e ∈ w, e ∈ E := by
  intro w
  induction w with
  | nil => intro a b h; exact absurd h (by simp [WalkFT])
  | cons e w ih =>
      intro a b h f hf
      cases w with
      | nil =>
          obtain ⟨he, -, -⟩ := h
          simp only [List.mem_singleton] at hf
          exact hf ▸ he
      | cons e2 w' =>
          obtain ⟨he, -, h2⟩ := h
          rcases List.mem_cons.mp hf with hf | hf
          · exact hf ▸ he
          · exact ih e.2 b h2 f hf

theorem walk_append {E : List (String × String)} :
    ∀ (u : List (String × String)) (v : List (String × String)) (a m b : String),
      WalkFT E a m u → WalkFT E m b v → WalkFT E a b (u ++ v) := by
  intro u
  induction u with
  | nil => intro v a m b hu; exact absurd hu (by simp [WalkFT])
  | cons e u ih =>
      intro v a m b hu hv
      cases u with
      | nil =>
          obtain ⟨he, h1, h2⟩ := hu
          cases v with
          | nil => exact absurd hv (by simp [WalkFT])
          | cons f v' => exact ⟨he, h1, h2 ▸ hv⟩
      | cons e2 u' =>
          obtain ⟨he, h1, h2⟩ := hu
          exact ⟨he, h1, ih v e.2 m b h2 hv⟩

theorem walk_split {E : List (String × String)} :
    ∀ (u v : List (String × String)) (a b : String), u ≠ [] → v ≠ [] →
      WalkFT E a b (u ++ v) → ∃ m, WalkFT E a m u ∧ WalkFT E m b v := by
  intro u
  induction u with
  | nil => intro v a b hu; exact absurd rfl hu
  | cons e u ih =>
      intro v a b _ hv h
      cases u with
      | nil =>
          cases v with
          | nil => exact absurd rfl hv
          | cons f v' =>
              obtain ⟨he, h1, h2⟩ := h
              exact ⟨e.2, ⟨he, h1, rfl⟩, h2⟩
      | cons e2 u' =>
          have h' : WalkFT E a b (e :: ((e2 :: u') ++ v)) := h
          obtain ⟨he, h1, h2⟩ := h'
          obtain ⟨m, hm1, hm2⟩ := ih v e.2 b (by simp) hv h2
          exact ⟨m, ⟨he, h1, hm1⟩, hm2⟩

theorem walk_retarget {E : List (String × String)}
    {x b m : String} {e : String × String} {w : List (String × String)}
    (h : WalkFT E x b (e :: w)) (hm : e.1 = m) : WalkFT E m b (e :: w) := by
  cases w with
  | nil => obtain ⟨he, -, h2⟩ := h; exact ⟨he, hm, h2⟩
  | cons f w' => obtain ⟨he, -, h2⟩ := h; exact ⟨he, hm, h2⟩

theorem walk_drop_middle {E : List (String × String)}
    {m b : String} {e : String × String} {w2 w3 : List (String × String)}
    (h : WalkFT E m b ((e :: w2) ++ (e :: w3))) : WalkFT E m b (e :: w3) := by
  obtain ⟨m', h1, h2⟩ := walk_split (e :: w2) (e :: w3) m b (by simp) (by simp) h
  have hm : e.1 = m := by
    cases w2 with
    | nil => exact h1.2.1
    | cons f w2' => exact h1.2.1
  exact walk_retarget h2 hm

theorem walk_shorten {E : List (String × String)} :
    ∀ (n : Nat) (w : List (String × String)) (a b : String),
      w.length ≤ n → WalkFT E a b w →
      ∃ w2, WalkFT E a b w2 ∧ w2.length ≤ E.length := by
  intro n
  induction n with
  | zero =>
      intro w a b hlen h
      cases w with
      | nil => exact absurd h (by simp [WalkFT])
      | cons e w' => simp at hlen
  | succ n ih =>
      intro w a b hlen h
      by_cases hshort : w.length ≤ E.length
      · exact ⟨w, h, hshort⟩
      · have hnd : ¬ w.Nodup := by
          intro hnd
          exact hshort (length_le_of_nodup_subset hnd (walk_edges_mem w a b h))
        obtain ⟨e, l1, l2, l3, hw⟩ := exists_dup_split w hnd
        cases l1 with
        | nil =>
            have h' : WalkFT E a b ((e :: l2) ++ (e :: l3)) := by
              rw [hw] at h; simpa using h
            have hshorter := walk_drop_middle h'
            refine ih (e :: l3) a b ?_ hshorter
            have : w.length = l2.length + l3.length + 2 := by simp [hw]; omega
            simp only [List.length_cons]
            omega
        | cons x l1' =>
            have h' : WalkFT E a b ((x :: l1') ++ ((e :: l2) ++ (e :: l3))) := by
              rw [hw] at h; simpa using h
            obtain ⟨m, hm1, hm2⟩ :=
              walk_split (x :: l1') ((e :: l2) ++ (e :: l3)) a b (by simp) (by simp) h'
            have hm2' := walk_drop_middle hm2
            have hjoin := walk_append (x :: l1') (e :: l3) a m b hm1 hm2'
            refine ih ((x :: l1') ++ (e :: l3)) a b ?_ hjoin
            have : w.length = l1'.length + l2.length + l3.length + 3 := by
              simp [hw]; omega
            simp only [List.length_append, List.length_cons]
            omega

theorem reaches_to_reachN {E : List (String × String)} {a b : String}
    (h : Reaches E a b) : reachN E E.length a b = true := by
  obtain ⟨w, hw⟩ := reaches_to_walk h
  obtain ⟨w2, hw2, hlen⟩ := walk_shorten w.length w a b le_rfl hw
  exact walk_to_reachN w2 a b E.length hw2 hlen

theorem reaches_fst_mem {E : List (String × String)} {a b : String}
    (h : Reaches E a b) : a ∈ E.map Prod.fst := by
  cases h with
  | base hmem => exact List.mem_map.mpr ⟨(a, b), hmem, rfl⟩
  | head hmem _ => exact List.mem_map.mpr ⟨(a, _), hmem, rfl⟩

theorem hasCycle_false_acyclic {E : List (String × String)}
    (h : hasCycle E = false) : ∀ n, ¬ Reaches E n n := by
  intro n hn
  have : hasCycle E = true :=
    List.any_eq_true.mpr ⟨n, reaches_fst_mem hn, reaches_to_reachN hn⟩
  simp [this] at h

theorem reaches_iff_reachN {E : List (String × String)} {a b : String} :
    Reaches E a b ↔ reachN E E.length a b = true :=
  ⟨reaches_to_reachN, reachN_to_reaches E.length a b⟩

/-! ### Association-list lemmas -/

theorem lookup_setTask_self :
    ∀ (m : List (String × Task)) (id : String) (t : Task),
      lookupTask (setTask m id t) id = some t := by
  intro m
  induction m with
  | nil => intro id t; simp [setTask, lookupTask]
  | cons p rest ih =>
      intro id t
      obtain ⟨k, u⟩ := p
      by_cases hk : k = id
      · simp [setTask, hk, lookupTask]
      · simp [setTask, hk, lookupTask, ih]

theorem lookup_setTask_ne :
    ∀ (m : List (String × Task)) (id k : String) (t : Task), k ≠ id →
      lookupTask (setTask m id t) k = lookupTask m k := by
  intro m
  induction m with
  | nil =>
      intro id k t hk
      simp [setTask, lookupTask, (Ne.symm hk : ¬ id = k)]
  | cons p rest ih =>
      intro id k t hk
      obtain ⟨k', u⟩ := p
      by_cases hk' : k' = id
      · subst hk'
        simp [setTask, lookupTask, (Ne.symm hk : ¬ k' = k)]
      · simp only [setTask, if_neg hk', lookupTask]
        by_cases hkk : k' = k
        · simp [hkk]
        · simp [hkk, ih id k t hk]

theorem lookupTask_mem :
    ∀ (m : List (String × Task)) (k : String) (t : Task),
      lookupTask m k = some t → (k, t) ∈ m := by
  intro m
  induction m with
  | nil => intro k t h; simp [lookupTask] at h
  | cons p rest ih =>
      intro k t h
      obtain ⟨k', u⟩ := p
      by_cases hk : k' = k
      · subst hk
        simp [lookupTask] at h
        simp [h]
      · simp [lookupTask, hk] at h
        exact List.mem_cons_of_mem _ (ih k t h)

/-! ### C2: acyclicity invariant and atomic rejection of `add_task` -/

theorem add_task_spec (g : DependencyGraph) (task : Task) :
    ∃ cand : List String × List (String × String),
      (hasCycle cand.2 = true ∧ add_task g task = (g, false)) ∨
      (hasCycle cand.2 = false ∧
        add_task g task =
          ({ nodes := cand.1, edges := cand.2,
             tasks := setTask g.tasks task.id task,
             stored := setTask g.tasks task.id task }, true)) := by
  by_cases hc : hasCycle ((task.dependencies.foldl
      (fun p dep =>
        if (lookupTask g.tasks dep).isSome then addEdge p.1 p.2 dep task.id else p)
      (addNode g.nodes task.id, g.edges)).2) = true
  · exact ⟨_, Or.inl ⟨hc, by simp [add_task, hc]⟩⟩
  · exact ⟨_, Or.inr ⟨by simpa using hc, by simp [add_task, hc]⟩⟩

/-- C2: starting from a committed state whose cycle check passes, `add_task`
never commits a cyclic graph (semantically: no node reaches itself), and a
rejected insertion returns the state — graph, task map and persisted
snapshot — exactly as it was. -/
theorem insertTask_acyclic_and_atomic (g : DependencyGraph) (task : Task) :
    (hasCycle g.edges = false →
      ∀ n, ¬ Reaches (add_task g task).1.edges n n) ∧
    ((add_task g task).2 = false → (add_task g task).1 = g) := by
  obtain ⟨cand, hspec⟩ := add_task_spec g task
  rcases hspec with ⟨hc, heq⟩ | ⟨hc, heq⟩
  · constructor
    · intro hg n
      rw [heq]
      exact hasCycle_false_acyclic hg n
    · intro _; rw [heq]
  · constructor
    · intro _ n
      rw [heq]
      exact hasCycle_false_acyclic hc n
    · intro hfalse
      rw [heq] at hfalse
      simp at hfalse

/-- Witness for C2 at a concrete input: `gChain` is acyclic, and re-inserting
`A` with a dependency on `B` is rejected without any state change. -/
theorem insertTask_acyclic_and_atomic_witness :
    hasCycle gChain.edges = false ∧
    (∀ n, ¬ Reaches (add_task gChain tA2).1.edges n n) ∧
    (add_task gChain tA2).1 = gChain :=
  ⟨by decide,
   (insertTask_acyclic_and_atomic gChain tA2).1 (by decide),
   (insertTask_acyclic_and_atomic gChain tA2).2 (by decide)⟩

/-! ### C3: invalid status during updateProgress -/

/-- C3 (amended): with an invalid status string, the status machine, the
volatility and `updated_at` writes and the cascade are all skipped, but the
unconditional progress write that precedes status parsing is kept, and the
resulting map is persisted. -/
theorem updateProgress_invalid_status (g : DependencyGraph) (id : String)
    (prog : ℚ) (s : String) (now : Nat) (t : Task)
    (hl : lookupTask g.tasks id = some t) (hs : statusOfString s = none) :
    (update_task_progress g id prog s now).tasks =
      setTask g.tasks id { t with progress := prog } ∧
    lookupTask (update_task_progress g id prog s now).tasks id =
      some { t with progress := prog } ∧
    (update_task_progress g id prog s now).stored =
      (update_task_progress g id prog s now).tasks ∧
    (update_task_progress g id prog s now).nodes = g.nodes ∧
    (update_task_progress g id prog s now).edges = g.edges := by
  have hred : update_task_progress g id prog s now =
      { g with tasks := setTask g.tasks id { t with progress := prog },
               stored := setTask g.tasks id { t with progress := prog } } := by
    unfold update_task_progress
    rw [hl, hs]
  rw [hred]
  exact ⟨rfl, lookup_setTask_self _ _ _, rfl, rfl, rfl⟩

/-- Counterexample to C3 as stated: updating `H` in `gHSS` with progress 1/2
and the invalid status string "finished" changes the stored progress from 0
to 1/2 and rewrites the persisted snapshot, so the update is not discarded
in full (only status, volatility and `updated_at` stay put). -/
theorem updateProgress_invalid_status_cex :
    (lookupTask gHSS.tasks "H").map Task.progress = some 0 ∧
    (lookupTask (update_task_progress gHSS "H" 1 "finished" 9).tasks "H").map
      Task.progress = some 1 ∧
    (update_task_progress gHSS "H" 1 "finished" 9).stored ≠ gHSS.stored ∧
    (lookupTask (update_task_progress gHSS "H" 1 "finished" 9).tasks "H").map
      Task.status = some TaskStatus.pending := by
  decide

/-- Witness for C3 (amended) at a concrete input. -/
theorem updateProgress_invalid_status_witness :
    lookupTask gHSS.tasks "H" = some tH ∧
    statusOfString "finished" = none ∧
    (update_task_progress gHSS "H" 1 "finished" 9).tasks =
      setTask gHSS.tasks "H" { tH with progress := 1 } :=
  ⟨by decide, by decide,
   (updateProgress_invalid_status gHSS "H" 1 "finished" 9 tH
     (by decide) (by decide)).1⟩

/-! ### C1: the ready-task frontier -/

theorem depOk_iff (tasks : List (String × Task)) (p : String) :
    depOk tasks p = true ↔
      ∃ pt, lookupTask tasks p = some pt ∧
        (pt.status = TaskStatus.done ∨
         pt.status = TaskStatus.waiting_for_validation ∨
         ∃ m, pt.milestone.head? = some m ∧ m.trigger_process ≠ 0 ∧
           m.trigger_process ≤ pt.progress) := by
  unfold depOk
  cases hl : lookupTask tasks p with
  | none => simp
  | some d =>
      simp only [Option.some.injEq, Bool.or_eq_true, decide_eq_true_eq]
      constructor
      · rintro (⟨hs | hs⟩ | hm)
        · exact ⟨d, rfl, Or.inl hs⟩
        · exact ⟨d, rfl, Or.inr (Or.inl hs)⟩
        · refine ⟨d, rfl, Or.inr (Or.inr ?_)⟩
          unfold milestoneReached at hm
          cases hms : d.milestone with
          | nil => rw [hms] at hm; simp at hm
          | cons m ms =>
              rw [hms] at hm
              simp only [Bool.and_eq_true, Bool.not_eq_true', decide_eq_true_eq,
                decide_eq_false_iff_not] at hm
              exact ⟨m, by simp [hms], hm.1, hm.2⟩
      · rintro ⟨pt, hpt, hcond⟩
        have hd : d = pt := by simpa using hpt
        subst hd
        rcases hcond with hs | hs | ⟨m, hm, hm0, hmle⟩
        · exact Or.inl (Or.inl hs)
        · exact Or.inl (Or.inr hs)
        · refine Or.inr ?_
          unfold milestoneReached
          cases hms : d.milestone with
          | nil => rw [hms] at hm; simp at hm
          | cons m' ms =>
              rw [hms] at hm
              simp only [List.head?_cons, Option.some.injEq] at hm
              subst hm
              simp [hm0, hmle]

theorem readyCheck_eq_some (g : DependencyGraph) (id : String) (t : Task) :
    readyCheck g id = some t ↔
      lookupTask g.tasks id = some t ∧
      ¬(t.status = TaskStatus.done ∨ t.status = TaskStatus.in_progress ∨
        t.status = TaskStatus.waiting_for_validation) ∧
      (predecessors g.edges id).all (depOk g.tasks) = true := by
  cases hl : lookupTask g.tasks id with
  | none => simp [readyCheck, hl]
  | some u =>
      simp only [readyCheck, hl]
      split_ifs with hst hall
      · constructor
        · intro h; simp at h
        · rintro ⟨hut, hst2, -⟩
          obtain rfl : u = t := by simpa using hut
          exact absurd hst hst2
      · constructor
        · intro h
          obtain rfl : u = t := by simpa using h
          exact ⟨rfl, hst, hall⟩
        · rintro ⟨hut, -, -⟩
          exact hut
      · constructor
        · intro h; simp at h
        · rintro ⟨hut, -, hall2⟩
          obtain rfl : u = t := by simpa using hut
          exact absurd hall2 hall

/-- C1 (amended): a stored task is in `get_ready_tasks()` iff its own status
is none of DONE, IN_PROGRESS, WAITING_FOR_VALIDATION and every direct
predecessor is stored and satisfies DONE, WAITING_FOR_VALIDATION, or has a
first milestone with a nonzero `trigger_process` that its progress has
reached.  (The nonzero condition is the Python truthiness test
`if milestone.trigger_process` and is the one respect in which the original
claim fails.) -/
theorem getReadyTasks_iff (g : DependencyGraph) (id : String) (t : Task)
    (hids : ∀ p ∈ g.tasks, (Prod.snd p).id = Prod.fst p)
    (hnode : id ∈ g.nodes)
    (hl : lookupTask g.tasks id = some t) :
    t ∈ get_ready_tasks g ↔
      (¬(t.status = TaskStatus.done ∨ t.status = TaskStatus.in_progress ∨
         t.status = TaskStatus.waiting_for_validation) ∧
       ∀ p ∈ predecessors g.edges id, ∃ pt, lookupTask g.tasks p = some pt ∧
         (pt.status = TaskStatus.done ∨
          pt.status = TaskStatus.waiting_for_validation ∨
          ∃ m, pt.milestone.head? = some m ∧ m.trigger_process ≠ 0 ∧
            m.trigger_process ≤ pt.progress)) := by
  have hid : t.id = id := hids (id, t) (lookupTask_mem g.tasks id t hl)
  constructor
  · intro hmem
    obtain ⟨i, hi, hri⟩ := List.mem_filterMap.mp hmem
    obtain ⟨hli, hst, hall⟩ := (readyCheck_eq_some g i t).mp hri
    have : t.id = i := hids (i, t) (lookupTask_mem g.tasks i t hli)
    have hii : i = id := by rw [← this, hid]
    subst hii
    refine ⟨hst, ?_⟩
    intro p hp
    exact (depOk_iff g.tasks p).mp (List.all_eq_true.mp hall p hp)
  · rintro ⟨hst, hdeps⟩
    refine List.mem_filterMap.mpr ⟨id, hnode, ?_⟩
    refine (readyCheck_eq_some g id t).mpr ⟨hl, hst, ?_⟩
    refine List.all_eq_true.mpr ?_
    intro p hp
    exact (depOk_iff g.tasks p).mpr (hdeps p hp)

/-- Counterexample to C1 as stated: in `gC1` the predecessor `P` of `T` has a
first milestone with `trigger_process = 0 ≤ progress` and `T` is PENDING, so
the claim says `T` is ready; but the code treats `trigger_process = 0.0` as
falsy and `T` is not returned. -/
theorem getReadyTasks_iff_cex :
    lookupTask gC1.tasks "T" = some tT ∧
    ¬(tT.status = TaskStatus.done ∨ tT.status = TaskStatus.in_progress ∨
      tT.status = TaskStatus.waiting_for_validation) ∧
    (∀ p ∈ predecessors gC1.edges "T", ∃ pt, lookupTask gC1.tasks p = some pt ∧
       (pt.status = TaskStatus.done ∨
        pt.status = TaskStatus.waiting_for_validation ∨
        ∃ m, pt.milestone.head? = some m ∧ m.trigger_process ≤ pt.progress)) ∧
    tT ∉ get_ready_tasks gC1 := by
  refine ⟨by decide, by decide, ?_, by decide⟩
  intro p hp
  have hpred : predecessors gC1.edges "T" = ["P"] := by decide
  rw [hpred] at hp
  have hpP : p = "P" := by simpa using hp
  subst hpP
  refine ⟨tP, by decide, Or.inr (Or.inr ?_)⟩
  exact ⟨{ name := "m", trigger_process := 0, is_reached := false },
    by decide, by decide⟩

/-- Witness for C1 (amended) at a concrete input: in `gC1`, applying the
theorem to `T` shows it is not ready because its predecessor has a zero
`trigger_process`. -/
theorem getReadyTasks_iff_witness :
    lookupTask gC1.tasks "T" = some tT ∧
    (tT ∈ get_ready_tasks gC1 ↔
      (¬(tT.status = TaskStatus.done ∨ tT.status = TaskStatus.in_progress ∨
         tT.status = TaskStatus.waiting_for_validation) ∧
       ∀ p ∈ predecessors gC1.edges "T", ∃ pt, lookupTask gC1.tasks p = some pt ∧
         (pt.status = TaskStatus.done ∨
          pt.status = TaskStatus.waiting_for_validation ∨
          ∃ m, pt.milestone.head? = some m ∧ m.trigger_process ≠ 0 ∧
            m.trigger_process ≤ pt.progress))) :=
  ⟨by decide,
   getReadyTasks_iff gC1 "T" tT (by decide) (by decide) (by decide)⟩

/-! ### C4 and C10: the completion/validation state machine -/

theorem swEntryDone_congr {m1 m2 : List (String × Task)} {s : String}
    (h : lookupTask m1 s = lookupTask m2 s) :
    swEntryDone m1 s = swEntryDone m2 s := by
  unfold swEntryDone
  rw [h]

/-- Reduction of `update_task_progress` when a SOFTWARE task is marked DONE. -/
theorem update_sw_done_eq (g : DependencyGraph) (sid : String) (S : Task)
    (prog : ℚ) (now : Nat)
    (hlS : lookupTask g.tasks sid = some S)
    (hteamS : S.team = TeamType.software) :
    update_task_progress g sid prog "done" now =
      (let t2 : Task := { S with progress := prog, status := TaskStatus.done };
       let base := setTask (setTask (setTask g.tasks sid { S with progress := prog })
           sid t2) sid { t2 with volatility := 0 };
       let tsC := S.dependencies.foldl (promoteStep g.edges) base;
       let tsD := match lookupTask tsC sid with
         | some tf => setTask tsC sid { tf with updated_at := now }
         | none => tsC;
       { g with tasks := tsD, stored := tsD }) := by
  have hss : statusOfString "done" = some TaskStatus.done := by decide
  unfold update_task_progress
  rw [hlS, hss]
  dsimp only []
  have h1 : ¬(TaskStatus.done = TaskStatus.done ∧
      ({ S with progress := prog, status := TaskStatus.done } : Task).team =
        TeamType.hardware) := by
    simp [hteamS]
  have h2 : (TaskStatus.done = TaskStatus.done ∧
      ({ S with progress := prog, status := TaskStatus.done } : Task).team =
        TeamType.software) := by
    simp [hteamS]
  rw [if_neg h1, if_pos h2]

/-- Reduction of `update_task_progress` when a HARDWARE task is marked DONE. -/
theorem update_hw_done_eq (g : DependencyGraph) (sid : String) (H : Task)
    (prog : ℚ) (now : Nat)
    (hlH : lookupTask g.tasks sid = some H)
    (hteamH : H.team = TeamType.hardware) :
    update_task_progress g sid prog "done" now =
      (let t2 : Task := { H with progress := prog, status := TaskStatus.done };
       let tsA := setTask (setTask g.tasks sid { H with progress := prog }) sid t2;
       let tsB := if swValidatorsDone tsA g.edges sid then
           setTask tsA sid { t2 with status := TaskStatus.done, volatility := 0 }
         else
           setTask tsA sid { t2 with status := TaskStatus.waiting_for_validation };
       let tsD := match lookupTask tsB sid with
         | some tf => setTask tsB sid { tf with updated_at := now }
         | none => tsB;
       { g with tasks := tsD, stored := tsD }) := by
  have hss : statusOfString "done" = some TaskStatus.done := by decide
  unfold update_task_progress
  rw [hlH, hss]
  dsimp only []
  have h1 : (TaskStatus.done = TaskStatus.done ∧
      ({ H with progress := prog, status := TaskStatus.done } : Task).team =
        TeamType.hardware) := by
    simp [hteamH]
  have h2 : ¬(TaskStatus.done = TaskStatus.done ∧
      ({ H with progress := prog, status := TaskStatus.done } : Task).team =
        TeamType.software) := by
    simp [hteamH]
  rw [if_pos h1, if_neg h2]

theorem promoteStep_eq (es : List (String × String)) (acc : List (String × Task))
    (dep : String) :
    promoteStep es acc dep = acc ∨
    ∃ hw, lookupTask acc dep = some hw ∧ hw.team = TeamType.hardware ∧
      swValidatorsDone acc es dep = true ∧
      promoteStep es acc dep =
        setTask acc dep { hw with status := TaskStatus.done, volatility := 0 } := by
  unfold promoteStep
  cases hl : lookupTask acc dep with
  | none => exact Or.inl rfl
  | some hw =>
      dsimp only []
      by_cases hteam : hw.team = TeamType.hardware
      · by_cases hval : swValidatorsDone acc es dep = true
        · exact Or.inr ⟨hw, rfl, hteam, hval, by rw [if_pos hteam, if_pos hval]⟩
        · left
          rw [if_pos hteam, if_neg hval]
      · left
        rw [if_neg hteam]

theorem promoInv_refl (base : List (String × Task)) : PromoInv base base :=
  fun _ => Or.inl rfl

theorem promoteStep_promoInv {base acc : List (String × Task)}
    {es : List (String × String)} {dep : String} (h : PromoInv base acc) :
    PromoInv base (promoteStep es acc dep) := by
  rcases promoteStep_eq es acc dep with heq | ⟨hw, hl, hteam, hval, heq⟩
  · rw [heq]; exact h
  · rw [heq]
    intro k
    by_cases hk : k = dep
    · subst hk
      rw [lookup_setTask_self]
      rcases h k with h0 | ⟨u, hu1, hu2⟩
      · refine Or.inr ⟨hw, ?_, rfl⟩
        rw [← h0]
        exact hl
      · refine Or.inr ⟨u, hu1, ?_⟩
        rw [hl] at hu2
        have huw : hw = { u with status := TaskStatus.done, volatility := 0 } :=
          Option.some.inj hu2
        rw [huw]
    · rw [lookup_setTask_ne _ _ _ _ hk]
      exact h k

theorem foldl_promoInv {base : List (String × Task)} {es : List (String × String)} :
    ∀ (l : List String) (acc : List (String × Task)), PromoInv base acc →
      PromoInv base (l.foldl (promoteStep es) acc) := by
  intro l
  induction l with
  | nil => intro acc h; exact h
  | cons d l ih => intro acc h; exact ih _ (promoteStep_promoInv h)

theorem promoteStep_keeps {es : List (String × String)} {acc : List (String × Task)}
    {dep d : String} {u : Task}
    (hd : lookupTask acc d = some { u with status := TaskStatus.done, volatility := 0 }) :
    lookupTask (promoteStep es acc dep) d =
      some { u with status := TaskStatus.done, volatility := 0 } := by
  rcases promoteStep_eq es acc dep with heq | ⟨hw, hl, hteam, hval, heq⟩
  · rw [heq]; exact hd
  · rw [heq]
    by_cases hk : d = dep
    · subst hk
      rw [lookup_setTask_self]
      rw [hd] at hl
      have huw : hw = { u with status := TaskStatus.done, volatility := 0 } :=
        (Option.some.inj hl).symm
      rw [huw]
    · rw [lookup_setTask_ne _ _ _ _ hk]
      exact hd

theorem foldl_keeps {es : List (String × String)} {d : String} {u : Task} :
    ∀ (l : List String) (acc : List (String × Task)),
      lookupTask acc d = some { u with status := TaskStatus.done, volatility := 0 } →
      lookupTask (l.foldl (promoteStep es) acc) d =
        some { u with status := TaskStatus.done, volatility := 0 } := by
  intro l
  induction l with
  | nil => intro acc h; exact h
  | cons e l ih => intro acc h; exact ih _ (promoteStep_keeps h)

theorem swEntryDone_promoInv {base acc : List (String × Task)} {s : String}
    (h : PromoInv base acc) (hbase : swEntryDone base s = true) :
    swEntryDone acc s = true := by
  rcases h s with h0 | ⟨u, hu1, hu2⟩
  · rw [swEntryDone_congr h0]
    exact hbase
  · unfold swEntryDone
    rw [hu2]
    simp

theorem promoteStep_at {es : List (String × String)} {base acc : List (String × Task)}
    {d : String} {hw : Task}
    (hinv : PromoInv base acc)
    (hbase : lookupTask base d = some hw)
    (hteam : hw.team = TeamType.hardware)
    (hsucc : ∀ s ∈ successors es d, swEntryDone base s = true) :
    lookupTask (promoteStep es acc d) d =
      some { hw with status := TaskStatus.done, volatility := 0 } := by
  have hval : swValidatorsDone acc es d = true := by
    unfold swValidatorsDone
    refine List.all_eq_true.mpr ?_
    intro s hs
    exact swEntryDone_promoInv hinv (hsucc s hs)
  rcases hinv d with h0 | ⟨u, hu1, hu2⟩
  · have hl : lookupTask acc d = some hw := by rw [h0]; exact hbase
    have heq : promoteStep es acc d =
        setTask acc d { hw with status := TaskStatus.done, volatility := 0 } := by
      unfold promoteStep
      rw [hl]
      dsimp only []
      rw [if_pos hteam, if_pos hval]
    rw [heq, lookup_setTask_self]
  · rw [hbase] at hu1
    have huw : u = hw := (Option.some.inj hu1).symm
    subst huw
    have hteam2 : ({ u with status := TaskStatus.done, volatility := 0 } : Task).team =
        TeamType.hardware := hteam
    have heq : promoteStep es acc d =
        setTask acc d
          { ({ u with status := TaskStatus.done, volatility := 0 } : Task) with
            status := TaskStatus.done, volatility := 0 } := by
      unfold promoteStep
      rw [hu2]
      dsimp only []
      rw [if_pos hteam2, if_pos hval]
    rw [heq, lookup_setTask_self]

theorem cascade_promotes {es : List (String × String)} {base : List (String × Task)}
    {d : String} {hw : Task} (l : List String)
    (hd : d ∈ l)
    (hbase : lookupTask base d = some hw)
    (hteam : hw.team = TeamType.hardware)
    (hsucc : ∀ s ∈ successors es d, swEntryDone base s = true) :
    lookupTask (l.foldl (promoteStep es) base) d =
      some { hw with status := TaskStatus.done, volatility := 0 } := by
  obtain ⟨l1, l2, rfl⟩ := List.append_of_mem hd
  rw [List.foldl_append, List.foldl_cons]
  have hinv1 : PromoInv base (List.foldl (promoteStep es) base l1) :=
    foldl_promoInv l1 base (promoInv_refl base)
  exact foldl_keeps l2 _ (promoteStep_at hinv1 hbase hteam hsucc)

theorem updateProgress_hw_waiting (g : DependencyGraph) (sid : String) (H : Task)
    (prog : ℚ) (now : Nat) (s0 : String) (S : Task)
    (hlH : lookupTask g.tasks sid = some H)
    (hteamH : H.team = TeamType.hardware)
    (hs0 : s0 ∈ successors g.edges sid)
    (hne : s0 ≠ sid)
    (hlS : lookupTask g.tasks s0 = some S)
    (hteamS : S.team = TeamType.software)
    (hSnd : S.status ≠ TaskStatus.done) :
    lookupTask (update_task_progress g sid prog "done" now).tasks sid =
      some { H with progress := prog,
                    status := TaskStatus.waiting_for_validation,
                    updated_at := now } := by
  rw [update_hw_done_eq g sid H prog now hlH hteamH]
  dsimp only []
  have hlS2 : lookupTask (setTask (setTask g.tasks sid { H with progress := prog })
      sid { H with progress := prog, status := TaskStatus.done }) s0 = some S := by
    rw [lookup_setTask_ne _ _ _ _ hne, lookup_setTask_ne _ _ _ _ hne]
    exact hlS
  have hval : swValidatorsDone (setTask (setTask g.tasks sid
      { H with progress := prog }) sid
      { H with progress := prog, status := TaskStatus.done }) g.edges sid = false := by
    cases hv : swValidatorsDone (setTask (setTask g.tasks sid
        { H with progress := prog }) sid
        { H with progress := prog, status := TaskStatus.done }) g.edges sid with
    | false => rfl
    | true =>
        have h0 := List.all_eq_true.mp hv s0 hs0
        unfold swEntryDone at h0
        rw [hlS2] at h0
        simp [hteamS, hSnd] at h0
  rw [hval]
  simp only [Bool.false_eq_true, if_false]
  rw [lookup_setTask_self]
  dsimp only []
  rw [lookup_setTask_self]

theorem updateProgress_hw_finalize (g : DependencyGraph) (sid : String) (H : Task)
    (prog : ℚ) (now : Nat)
    (hlH : lookupTask g.tasks sid = some H)
    (hteamH : H.team = TeamType.hardware)
    (hsucc : ∀ s ∈ successors g.edges sid, s ≠ sid → swEntryDone g.tasks s = true) :
    lookupTask (update_task_progress g sid prog "done" now).tasks sid =
      some { H with progress := prog, status := TaskStatus.done,
                    volatility := 0, updated_at := now } := by
  rw [update_hw_done_eq g sid H prog now hlH hteamH]
  dsimp only []
  have hval : swValidatorsDone (setTask (setTask g.tasks sid
      { H with progress := prog }) sid
      { H with progress := prog, status := TaskStatus.done }) g.edges sid = true := by
    refine List.all_eq_true.mpr ?_
    intro s hs
    by_cases hssid : s = sid
    · subst hssid
      unfold swEntryDone
      rw [lookup_setTask_self]
      simp [hteamH]
    · have hl2 : lookupTask (setTask (setTask g.tasks sid
          { H with progress := prog }) sid
          { H with progress := prog, status := TaskStatus.done }) s =
          lookupTask g.tasks s := by
        rw [lookup_setTask_ne _ _ _ _ hssid, lookup_setTask_ne _ _ _ _ hssid]
      rw [swEntryDone_congr hl2]
      exact hsucc s hs hssid
  rw [hval]
  simp only [if_true]
  rw [lookup_setTask_self]
  dsimp only []
  rw [lookup_setTask_self]

/-- C10: marking a SOFTWARE task DONE promotes every HARDWARE task in its
declared dependency list whose SOFTWARE graph-successors other than the
updated task are already DONE, regardless of that hardware task's prior
status or progress: it ends DONE with volatility 0. -/
theorem swDone_promotes_hardware (g : DependencyGraph) (sid : String) (S : Task)
    (d : String) (hw : Task) (prog : ℚ) (now : Nat)
    (hlS : lookupTask g.tasks sid = some S)
    (hteamS : S.team = TeamType.software)
    (hd : d ∈ S.dependencies)
    (hlhw : lookupTask g.tasks d = some hw)
    (hteamhw : hw.team = TeamType.hardware)
    (hsucc : ∀ s ∈ successors g.edges d, s ≠ sid → swEntryDone g.tasks s = true) :
    lookupTask (update_task_progress g sid prog "done" now).tasks d =
      some { hw with status := TaskStatus.done, volatility := 0 } := by
  have hne : sid ≠ d := by
    intro h
    subst h
    rw [hlS] at hlhw
    have : S = hw := Option.some.inj hlhw
    rw [this, hteamhw] at hteamS
    exact absurd hteamS (by simp)
  have hned : d ≠ sid := Ne.symm hne
  rw [update_sw_done_eq g sid S prog now hlS hteamS]
  dsimp only []
  have hbase : lookupTask (setTask (setTask (setTask g.tasks sid
      { S with progress := prog }) sid
      { S with progress := prog, status := TaskStatus.done }) sid
      { S with progress := prog, status := TaskStatus.done, volatility := 0 }) d =
      some hw := by
    rw [lookup_setTask_ne _ _ _ _ hned, lookup_setTask_ne _ _ _ _ hned,
      lookup_setTask_ne _ _ _ _ hned]
    exact hlhw
  have hsucc2 : ∀ s ∈ successors g.edges d,
      swEntryDone (setTask (setTask (setTask g.tasks sid
        { S with progress := prog }) sid
        { S with progress := prog, status := TaskStatus.done }) sid
        { S with progress := prog, status := TaskStatus.done, volatility := 0 }) s =
        true := by
    intro s hs
    by_cases hssid : s = sid
    · subst hssid
      unfold swEntryDone
      rw [lookup_setTask_self]
      simp
    · have hl2 : lookupTask (setTask (setTask (setTask g.tasks sid
          { S with progress := prog }) sid
          { S with progress := prog, status := TaskStatus.done }) sid
          { S with progress := prog, status := TaskStatus.done, volatility := 0 }) s =
          lookupTask g.tasks s := by
        rw [lookup_setTask_ne _ _ _ _ hssid, lookup_setTask_ne _ _ _ _ hssid,
          lookup_setTask_ne _ _ _ _ hssid]
      rw [swEntryDone_congr hl2]
      exact hsucc s hs hssid
  have hres := cascade_promotes S.dependencies hd hbase hteamhw hsucc2
  cases hfin : lookupTask (S.dependencies.foldl (promoteStep g.edges)
      (setTask (setTask (setTask g.tasks sid
        { S with progress := prog }) sid
        { S with progress := prog, status := TaskStatus.done }) sid
        { S with progress := prog, status := TaskStatus.done, volatility := 0 })) sid with
  | none => exact hres
  | some tf =>
      dsimp only []
      rw [lookup_setTask_ne _ _ _ _ hned]
      exact hres

/-- Witness for C10: in `gC10` (where `S1` is already DONE), completing `S2`
promotes the hardware task `H` — which is PENDING at progress 0 and never
passed through WAITING_FOR_VALIDATION — straight to DONE with volatility 0. -/
theorem swDone_promotes_hardware_witness :
    (lookupTask gC10.tasks "H").map (fun t => (t.status, t.progress)) =
      some (TaskStatus.pending, 0) ∧
    lookupTask (update_task_progress gC10 "S2" 1 "done" 3).tasks "H" =
      some { tH with status := TaskStatus.done, volatility := 0 } :=
  ⟨by decide,
   swDone_promotes_hardware gC10 "S2" tS2 "H" tH 1 3 (by decide) (by decide)
     (by decide) (by decide) (by decide) (by decide)⟩

/-- C4: the validation closure.  (a) Marking a HARDWARE task DONE while some
SOFTWARE graph-successor is not DONE leaves it WAITING_FOR_VALIDATION.
(b) Marking it DONE when every SOFTWARE graph-successor is DONE (vacuously if
none exist) finalizes it: status DONE, volatility 0.  (c) For the concrete
state `gHSS` (hardware `H` with software successors `S1`, `S2`), completing
`S1` and `S2` in any order relative to `H`'s own update leaves `H` DONE with
volatility 0. -/
theorem validation_closure :
    (∀ (g : DependencyGraph) (sid : String) (H : Task) (prog : ℚ) (now : Nat)
        (s0 : String) (S : Task),
        lookupTask g.tasks sid = some H → H.team = TeamType.hardware →
        s0 ∈ successors g.edges sid → s0 ≠ sid →
        lookupTask g.tasks s0 = some S → S.team = TeamType.software →
        S.status ≠ TaskStatus.done →
        lookupTask (update_task_progress g sid prog "done" now).tasks sid =
          some { H with progress := prog,
                        status := TaskStatus.waiting_for_validation,
                        updated_at := now }) ∧
    (∀ (g : DependencyGraph) (sid : String) (H : Task) (prog : ℚ) (now : Nat),
        lookupTask g.tasks sid = some H → H.team = TeamType.hardware →
        (∀ s ∈ successors g.edges sid, s ≠ sid → swEntryDone g.tasks s = true) →
        lookupTask (update_task_progress g sid prog "done" now).tasks sid =
          some { H with progress := prog, status := TaskStatus.done,
                        volatility := 0, updated_at := now }) ∧
    ((lookupTask (update_task_progress (update_task_progress (update_task_progress
        gHSS "H" 1 "done" 1) "S1" 1 "done" 2) "S2" 1 "done" 3).tasks "H").map
        (fun t => (t.status, t.volatility)) = some (TaskStatus.done, 0) ∧
     (lookupTask (update_task_progress (update_task_progress (update_task_progress
        gHSS "S1" 1 "done" 1) "H" 1 "done" 2) "S2" 1 "done" 3).tasks "H").map
        (fun t => (t.status, t.volatility)) = some (TaskStatus.done, 0) ∧
     (lookupTask (update_task_progress (update_task_progress (update_task_progress
        gHSS "S1" 1 "done" 1) "S2" 1 "done" 2) "H" 1 "done" 3).tasks "H").map
        (fun t => (t.status, t.volatility)) = some (TaskStatus.done, 0)) :=
  ⟨updateProgress_hw_waiting, updateProgress_hw_finalize,
   by decide, by decide, by decide⟩

/-- Witness for C4 at concrete inputs: updating `H` in `gHSS` to DONE while
`S1` is PENDING yields WAITING_FOR_VALIDATION; updating `A` in `gChain`
(whose only graph successor `B` is HARDWARE, so the software-validator set is
empty) finalizes to DONE with volatility 0. -/
theorem validation_closure_witness :
    lookupTask (update_task_progress gHSS "H" 1 "done" 5).tasks "H" =
      some { tH with progress := 1,
                     status := TaskStatus.waiting_for_validation,
                     updated_at := 5 } ∧
    lookupTask (update_task_progress gChain "A" 1 "done" 5).tasks "A" =
      some { tA with progress := 1, status := TaskStatus.done,
                     volatility := 0, updated_at := 5 } :=
  ⟨validation_closure.1 gHSS "H" tH 1 5 "S1" tS1 (by decide) (by decide)
     (by decide) (by decide) (by decide) (by decide) (by decide),
   validation_closure.2.1 gChain "A" tA 1 5 (by decide) (by decide) (by decide)⟩

/-! ### C7: cascading downstream reset -/

theorem reaches_snd_mem {E : List (String × String)} {a b : String}
    (h : Reaches E a b) : b ∈ E.map Prod.snd := by
  induction h with
  | base hmem => exact List.mem_map.mpr ⟨(_, _), hmem, rfl⟩
  | head _ _ ih => exact ih

theorem filterMap_congr_on {α β : Type} (f f2 : α → Option β) :
    ∀ (l : List α), (∀ x ∈ l, f x = f2 x) → l.filterMap f = l.filterMap f2 := by
  intro l
  induction l with
  | nil => intro h; rfl
  | cons x l ih =>
      intro h
      simp only [List.filterMap_cons, h x (by simp)]
      rw [ih (fun y hy => h y (by simp [hy]))]

theorem resetStep_eq (now : Nat) (st : List (String × Task) × List String)
    (d : String) :
    (lookupTask st.1 d = none ∧ resetStep now st d = st) ∨
    (∃ t, lookupTask st.1 d = some t ∧
       (((0 < t.progress ∨ t.status = TaskStatus.done) ∧
           resetStep now st d =
             (setTask st.1 d
                { t with progress := 0, status := TaskStatus.pending,
                         updated_at := now },
              st.2 ++ [t.id])) ∨
        (¬(0 < t.progress ∨ t.status = TaskStatus.done) ∧
           resetStep now st d = st))) := by
  unfold resetStep
  cases hl : lookupTask st.1 d with
  | none => exact Or.inl ⟨rfl, rfl⟩
  | some t =>
      dsimp only []
      by_cases hc : 0 < t.progress ∨ t.status = TaskStatus.done
      · exact Or.inr ⟨t, rfl, Or.inl ⟨hc, by rw [if_pos hc]⟩⟩
      · exact Or.inr ⟨t, rfl, Or.inr ⟨hc, by rw [if_neg hc]⟩⟩

theorem resetStep_fst_ne (now : Nat) (st : List (String × Task) × List String)
    (d k : String) (hk : k ≠ d) :
    lookupTask (resetStep now st d).1 k = lookupTask st.1 k := by
  rcases resetStep_eq now st d with ⟨-, heq⟩ | ⟨t, -, ⟨-, heq⟩ | ⟨-, heq⟩⟩
  · rw [heq]
  · rw [heq]
    exact lookup_setTask_ne _ _ _ _ hk
  · rw [heq]

theorem resetFold_notmem (now : Nat) :
    ∀ (ds : List String) (st : List (String × Task) × List String) (k : String),
      k ∉ ds →
      lookupTask (ds.foldl (resetStep now) st).1 k = lookupTask st.1 k := by
  intro ds
  induction ds with
  | nil => intro st k _; rfl
  | cons d ds ih =>
      intro st k hk
      rw [List.foldl_cons]
      rw [ih (resetStep now st d) k (fun h => hk (List.mem_cons_of_mem _ h))]
      exact resetStep_fst_ne now st d k (fun h => hk (h ▸ List.mem_cons_self d ds))

theorem resetFold_spec (now : Nat) :
    ∀ (ds : List String) (m0 : List (String × Task)) (acc0 : List String),
      ds.Nodup →
      ((ds.foldl (resetStep now) (m0, acc0)).2 = acc0 ++ ds.filterMap (fun d =>
         match lookupTask m0 d with
         | some t =>
             if 0 < t.progress ∨ t.status = TaskStatus.done then some t.id else none
         | none => none)) ∧
      (∀ k ∈ ds, lookupTask (ds.foldl (resetStep now) (m0, acc0)).1 k =
         match lookupTask m0 k with
         | some t =>
             if 0 < t.progress ∨ t.status = TaskStatus.done then
               some { t with progress := 0, status := TaskStatus.pending,
                             updated_at := now }
             else some t
         | none => none) := by
  intro ds
  induction ds with
  | nil => intro m0 acc0 _; exact ⟨by simp, by simp⟩
  | cons d ds ih =>
      intro m0 acc0 hnd
      have hdnotin : d ∉ ds := (List.nodup_cons.mp hnd).1
      have hndtail : ds.Nodup := (List.nodup_cons.mp hnd).2
      rw [List.foldl_cons]
      have hfst : ∀ k ∈ ds, lookupTask (resetStep now (m0, acc0) d).1 k =
          lookupTask m0 k := by
        intro k hk
        exact resetStep_fst_ne now (m0, acc0) d k (fun h => hdnotin (h ▸ hk))
      obtain ⟨ih2, ih1⟩ := ih (resetStep now (m0, acc0) d).1
        (resetStep now (m0, acc0) d).2 hndtail
      constructor
      · rw [Prod.mk.eta] at ih2
        rw [ih2]
        have hcongr : ds.filterMap (fun e =>
            match lookupTask (resetStep now (m0, acc0) d).1 e with
            | some t =>
                if 0 < t.progress ∨ t.status = TaskStatus.done then some t.id else none
            | none => none) = ds.filterMap (fun e =>
            match lookupTask m0 e with
            | some t =>
                if 0 < t.progress ∨ t.status = TaskStatus.done then some t.id else none
            | none => none) :=
          filterMap_congr_on _ _ ds (fun e he => by rw [hfst e he])
        rw [hcongr]
        rcases resetStep_eq now (m0, acc0) d with ⟨hl, heq⟩ |
          ⟨t, hl, ⟨hc, heq⟩ | ⟨hc, heq⟩⟩
        · rw [heq]
          simp [List.filterMap_cons, hl]
        · rw [heq]
          simp [List.filterMap_cons, hl, hc]
        · rw [heq]
          simp [List.filterMap_cons, hl, hc]
      · intro k hk
        rcases List.mem_cons.mp hk with hk | hk
        · subst hk
          rw [Prod.mk.eta] at ih2
          have hnot : lookupTask (ds.foldl (resetStep now)
              (resetStep now (m0, acc0) k)).1 k =
              lookupTask (resetStep now (m0, acc0) k).1 k :=
            resetFold_notmem now ds _ k hdnotin
          rw [hnot]
          rcases resetStep_eq now (m0, acc0) k with ⟨hl, heq⟩ |
            ⟨t, hl, ⟨hc, heq⟩ | ⟨hc, heq⟩⟩
          · simp [heq, hl]
          · rw [heq]
            dsimp only []
            rw [lookup_setTask_self, hl]
            simp [hc]
          · simp [heq, hl, hc]
        · rw [Prod.mk.eta] at ih1
          rw [ih1 k hk, hfst k hk]

theorem mem_descendantsOf {g : DependencyGraph} {a k : String}
    (hedges : ∀ e ∈ g.edges, e.2 ∈ g.nodes)
    (hacyc : hasCycle g.edges = false) :
    k ∈ descendantsOf g a ↔ Reaches g.edges a k := by
  unfold descendantsOf
  rw [List.mem_filter]
  constructor
  · rintro ⟨hk, hcond⟩
    simp only [Bool.and_eq_true, Bool.not_eq_true', decide_eq_false_iff_not] at hcond
    exact reachN_to_reaches _ _ _ hcond.2
  · intro hr
    refine ⟨?_, ?_⟩
    · obtain ⟨e, he, hke⟩ := List.mem_map.mp (reaches_snd_mem hr)
      exact hke ▸ hedges e he
    · simp only [Bool.and_eq_true, Bool.not_eq_true', decide_eq_false_iff_not]
      refine ⟨?_, reaches_to_reachN hr⟩
      intro hka
      subst hka
      exact hasCycle_false_acyclic hacyc k hr

theorem resetDownstream_parts {g : DependencyGraph} {a : String} {now : Nat}
    {g2 : DependencyGraph} {ids : List String}
    (h : reset_downstream_tasks g a now = some (g2, ids)) :
    a ∈ g.nodes ∧
    g2.tasks = ((descendantsOf g a).foldl (resetStep now) (g.tasks, [])).1 ∧
    ids = ((descendantsOf g a).foldl (resetStep now) (g.tasks, [])).2 := by
  unfold reset_downstream_tasks at h
  by_cases ha : a ∈ g.nodes
  · rw [if_pos ha] at h
    dsimp only [] at h
    split at h
    · simp only [Option.some.injEq, Prod.mk.injEq] at h
      exact ⟨ha, by rw [← h.1], h.2.symm⟩
    · simp only [Option.some.injEq, Prod.mk.injEq] at h
      exact ⟨ha, by rw [← h.1], h.2.symm⟩
  · rw [if_neg ha] at h
    exact absurd h (by simp)

/-- C7: with `A` in the graph of a well-formed acyclic state,
`resetDownstream(A)` returns exactly the transitive descendants of `A` whose
status was DONE or whose progress was positive, resets each of them to
PENDING at progress 0, and leaves `A` and every other task (including
descendants at progress 0 not DONE) untouched. -/
theorem resetDownstream_spec (g : DependencyGraph) (a : String) (now : Nat)
    (g2 : DependencyGraph) (ids : List String)
    (hedges : ∀ e ∈ g.edges, e.2 ∈ g.nodes)
    (hnodes : g.nodes.Nodup)
    (hids : ∀ p ∈ g.tasks, (Prod.snd p).id = Prod.fst p)
    (hacyc : hasCycle g.edges = false)
    (hcall : reset_downstream_tasks g a now = some (g2, ids)) :
    (∀ k, k ∈ ids ↔ (Reaches g.edges a k ∧ ∃ t, lookupTask g.tasks k = some t ∧
        (0 < t.progress ∨ t.status = TaskStatus.done))) ∧
    (∀ k t, k ∈ ids → lookupTask g.tasks k = some t →
        lookupTask g2.tasks k =
          some { t with progress := 0, status := TaskStatus.pending,
                        updated_at := now }) ∧
    lookupTask g2.tasks a = lookupTask g.tasks a ∧
    (∀ k, k ∉ ids → lookupTask g2.tasks k = lookupTask g.tasks k) := by
  obtain ⟨ha, htasks, hidseq⟩ := resetDownstream_parts hcall
  have hdsnd : (descendantsOf g a).Nodup := hnodes.filter _
  obtain ⟨hfold2, hfold1⟩ := resetFold_spec now (descendantsOf g a) g.tasks [] hdsnd
  have hidsF : ids = (descendantsOf g a).filterMap (fun d =>
      match lookupTask g.tasks d with
      | some t =>
          if 0 < t.progress ∨ t.status = TaskStatus.done then some t.id else none
      | none => none) := by
    rw [hidseq, hfold2]
    simp
  have hmemdesc : ∀ j, j ∈ descendantsOf g a ↔ Reaches g.edges a j :=
    fun j => mem_descendantsOf hedges hacyc
  have hi : ∀ k, k ∈ ids ↔ (Reaches g.edges a k ∧
      ∃ t, lookupTask g.tasks k = some t ∧
        (0 < t.progress ∨ t.status = TaskStatus.done)) := by
    intro k
    rw [hidsF, List.mem_filterMap]
    constructor
    · rintro ⟨d, hd, hstep⟩
      cases hl : lookupTask g.tasks d with
      | none => rw [hl] at hstep; simp at hstep
      | some t =>
          rw [hl] at hstep
          dsimp only [] at hstep
          by_cases hc : 0 < t.progress ∨ t.status = TaskStatus.done
          · rw [if_pos hc] at hstep
            have htid : t.id = d := hids (d, t) (lookupTask_mem _ _ _ hl)
            have hkd : d = k := by
              rw [← htid]
              exact Option.some.inj hstep
            subst hkd
            exact ⟨(hmemdesc d).mp hd, t, hl, hc⟩
          · rw [if_neg hc] at hstep
            simp at hstep
    · rintro ⟨hr, t, hl, hc⟩
      refine ⟨k, (hmemdesc k).mpr hr, ?_⟩
      rw [hl]
      dsimp only []
      rw [if_pos hc]
      have htid : t.id = k := hids (k, t) (lookupTask_mem _ _ _ hl)
      rw [htid]
  refine ⟨hi, ?_, ?_, ?_⟩
  · intro k t hk hl
    have hkds : k ∈ descendantsOf g a := by
      rcases (hi k).mp hk with ⟨hr, -⟩
      exact (hmemdesc k).mpr hr
    rcases (hi k).mp hk with ⟨-, t2, hl2, hc2⟩
    have ht2 : t2 = t := by
      rw [hl] at hl2
      exact (Option.some.inj hl2).symm
    subst ht2
    rw [htasks, hfold1 k hkds, hl]
    dsimp only []
    rw [if_pos hc2]
  · have hads : a ∉ descendantsOf g a := by
      intro had
      exact hasCycle_false_acyclic hacyc a ((hmemdesc a).mp had)
    rw [htasks]
    exact resetFold_notmem now (descendantsOf g a) (g.tasks, []) a hads
  · intro k hk
    by_cases hkds : k ∈ descendantsOf g a
    · rw [htasks, hfold1 k hkds]
      cases hl : lookupTask g.tasks k with
      | none => rfl
      | some t =>
          dsimp only []
          by_cases hc : 0 < t.progress ∨ t.status = TaskStatus.done
          · exact absurd ((hi k).mpr ⟨(hmemdesc k).mp hkds, t, hl, hc⟩) hk
          · rw [if_neg hc]
    · rw [htasks]
      exact resetFold_notmem now (descendantsOf g a) (g.tasks, []) k hkds

/-- Witness for C7 on the chain A -> B -> C with B and C at positive
progress: the call returns exactly `["B", "C"]`, resets `B`, and leaves `A`
untouched. -/
theorem resetDownstream_spec_witness :
    reset_downstream_tasks gChain "A" 9 = some (gReset, ["B", "C"]) ∧
    ("B" ∈ ["B", "C"] ↔ (Reaches gChain.edges "A" "B" ∧
       ∃ t, lookupTask gChain.tasks "B" = some t ∧
         (0 < t.progress ∨ t.status = TaskStatus.done))) ∧
    lookupTask gReset.tasks "B" =
      some { tB with progress := 0, status := TaskStatus.pending,
                     updated_at := 9 } ∧
    lookupTask gReset.tasks "A" = lookupTask gChain.tasks "A" := by
  have hcall : reset_downstream_tasks gChain "A" 9 = some (gReset, ["B", "C"]) := by
    decide
  have hspec := resetDownstream_spec gChain "A" 9 gReset ["B", "C"]
    (by decide) (by decide) (by decide) (by decide) hcall
  exact ⟨hcall, hspec.1 "B", hspec.2.1 "B" tB (by decide) (by decide), hspec.2.2.1⟩

/-! ### C9: scrap-risk-score properties -/

theorem scrap_foldl_eq_sum (tasks : List (String × Task)) :
    ∀ (deps : List String) (acc : ℚ),
      deps.foldl (fun a dep =>
        match lookupTask tasks dep with
        | none => a
        | some dt => a + dt.volatility * 100) acc =
      acc + (deps.map (fun dep =>
        match lookupTask tasks dep with
        | none => (0 : ℚ)
        | some dt => dt.volatility * 100)).sum := by
  intro deps
  induction deps with
  | nil => intro acc; simp
  | cons d deps ih =>
      intro acc
      rw [List.foldl_cons, List.map_cons, List.sum_cons]
      cases hl : lookupTask tasks d with
      | none =>
          dsimp only []
          rw [ih]
          ring
      | some dt =>
          dsimp only []
          rw [ih]
          ring

/-- C9: the scrap risk score is monotone in a dependency's stored volatility,
invariant in the task's own volatility field (which the code never reads),
identically 0 for INFRASTRUCTURE-category or SOFTWARE-owned tasks, and lies
in [0, 100] whenever all stored volatilities lie in [0, 1]. -/
theorem scrapRiskScore_props :
    (∀ (g : DependencyGraph) (t : Task) (d : String) (D : Task) (v : ℚ),
       lookupTask g.tasks d = some D → D.volatility ≤ v →
       calculate_scrap_risk_score g t ≤
         calculate_scrap_risk_score
           { g with tasks := setTask g.tasks d { D with volatility := v } } t) ∧
    (∀ (g : DependencyGraph) (t : Task) (w : ℚ),
       calculate_scrap_risk_score g { t with volatility := w } =
         calculate_scrap_risk_score g t) ∧
    (∀ (g : DependencyGraph) (t : Task),
       t.category = TaskCategory.infrastructure ∨ t.team = TeamType.software →
       calculate_scrap_risk_score g t = 0) ∧
    (∀ (g : DependencyGraph) (t : Task),
       (∀ p ∈ g.tasks, 0 ≤ (Prod.snd p).volatility ∧ (Prod.snd p).volatility ≤ 1) →
       0 ≤ calculate_scrap_risk_score g t ∧ calculate_scrap_risk_score g t ≤ 100) := by
  refine ⟨?_, ?_, ?_, ?_⟩
  · intro g t d D v hl hv
    unfold calculate_scrap_risk_score
    by_cases hinf : t.category = TaskCategory.infrastructure
    · rw [if_pos hinf, if_pos hinf]
    · rw [if_neg hinf, if_neg hinf]
      by_cases hsw : t.team = TeamType.software
      · rw [if_pos hsw, if_pos hsw]
      · rw [if_neg hsw, if_neg hsw]
        dsimp only []
        rw [scrap_foldl_eq_sum, scrap_foldl_eq_sum]
        refine min_le_min (by
          rw [zero_add, zero_add]
          refine List.sum_le_sum ?_
          intro p _
          by_cases hpd : p = d
          · subst hpd
            rw [hl, lookup_setTask_self]
            dsimp only []
            refine mul_le_mul_of_nonneg_right hv (by norm_num)
          · rw [lookup_setTask_ne _ _ _ _ hpd]) le_rfl
  · intro g t w
    rfl
  · intro g t h
    unfold calculate_scrap_risk_score
    rcases h with h | h
    · rw [if_pos h]
    · by_cases hinf : t.category = TaskCategory.infrastructure
      · rw [if_pos hinf]
      · rw [if_neg hinf, if_pos h]
  · intro g t hvol
    unfold calculate_scrap_risk_score
    by_cases hinf : t.category = TaskCategory.infrastructure
    · rw [if_pos hinf]
      norm_num
    · rw [if_neg hinf]
      by_cases hsw : t.team = TeamType.software
      · rw [if_pos hsw]
        norm_num
      · rw [if_neg hsw]
        rw [scrap_foldl_eq_sum, zero_add]
        constructor
        · refine le_min ?_ (by norm_num)
          refine List.sum_nonneg ?_
          intro x hx
          obtain ⟨p, -, hp⟩ := List.mem_map.mp hx
          subst hp
          cases hl : lookupTask g.tasks p with
          | none => simp
          | some dt =>
              dsimp only []
              have hmem := lookupTask_mem _ _ _ hl
              have h0 := (hvol (p, dt) hmem).1
              positivity
        · exact min_le_right _ _

/-- Witness for C9 at concrete inputs: raising the stored volatility of
dependency `A` from 9/10 to 1 cannot lower `B`'s score, `B`'s score ignores
`B`'s own volatility field, `C` (software) scores 0, and `B`'s score lies in
[0, 100]. -/
theorem scrapRiskScore_props_witness :
    (calculate_scrap_risk_score gChain tB ≤
       calculate_scrap_risk_score
         { gChain with tasks := setTask gChain.tasks "A" { tA with volatility := 1 } } tB) ∧
    calculate_scrap_risk_score gChain { tB with volatility := 1 } =
      calculate_scrap_risk_score gChain tB ∧
    calculate_scrap_risk_score gChain tC = 0 ∧
    (0 ≤ calculate_scrap_risk_score gChain tB ∧
     calculate_scrap_risk_score gChain tB ≤ 100) :=
  ⟨scrapRiskScore_props.1 gChain tB "A" tA 1 (by decide) (by decide),
   scrapRiskScore_props.2.1 gChain tB 1,
   scrapRiskScore_props.2.2.1 gChain tC (Or.inr (by decide)),
   scrapRiskScore_props.2.2.2 gChain tB (by decide)⟩

/-! ### C8: the swarming recommendation -/

theorem classify_eq_backward (t : Task) :
    classify_task_direction t = "BACKWARD" ↔
      t.category ≠ TaskCategory.support ∧ t.team = TeamType.software := by
  unfold classify_task_direction
  by_cases hsup : t.category = TaskCategory.support
  · rw [if_pos hsup]
    simp [hsup]
  · rw [if_neg hsup]
    by_cases hhw : t.team = TeamType.hardware
    · rw [if_pos hhw]
      simp [hhw]
    · rw [if_neg hhw]
      cases ht : t.team with
      | hardware => exact absurd ht hhw
      | software => simp [hsup]

theorem foldl_max_spec (f : Task → Int) :
    ∀ (l : List Task) (b r : Task),
      l.foldl (fun best x => if f best < f x then x else best) b = r →
      ((r = b ∧ ∀ u ∈ l, f u ≤ f b) ∨
       (∃ l1 l2, l = l1 ++ r :: l2 ∧ f b < f r ∧
          (∀ u ∈ l1, f u < f r) ∧ (∀ u ∈ l2, f u ≤ f r))) := by
  intro l
  induction l with
  | nil =>
      intro b r h
      exact Or.inl ⟨h.symm, by simp⟩
  | cons x l ih =>
      intro b r h
      rw [List.foldl_cons] at h
      by_cases hbx : f b < f x
      · rw [if_pos hbx] at h
        rcases ih x r h with ⟨hrx, hmax⟩ | ⟨l1, l2, heq, hlt, h1, h2⟩
        · refine Or.inr ⟨[], l, ?_, ?_, by simp, ?_⟩
          · rw [hrx]
            rfl
          · rw [hrx]
            exact hbx
          · rw [hrx]
            exact hmax
        · refine Or.inr ⟨x :: l1, l2, ?_, lt_trans hbx hlt, ?_, h2⟩
          · rw [heq]
            rfl
          · intro u hu
            rcases List.mem_cons.mp hu with rfl | hu
            · exact hlt
            · exact h1 u hu
      · rw [if_neg hbx] at h
        rcases ih b r h with ⟨hrb, hmax⟩ | ⟨l1, l2, heq, hlt, h1, h2⟩
        · refine Or.inl ⟨hrb, ?_⟩
          intro u hu
          rcases List.mem_cons.mp hu with rfl | hu
          · exact le_of_not_lt hbx
          · exact hmax u hu
        · refine Or.inr ⟨x :: l1, l2, ?_, hlt, ?_, h2⟩
          · rw [heq]
            rfl
          · intro u hu
            rcases List.mem_cons.mp hu with rfl | hu
            · exact lt_of_le_of_lt (le_of_not_lt hbx) hlt
            · exact h1 u hu

theorem pickMaxFirst_spec (f : Task → Int) (l : List Task) (hl : l ≠ []) :
    ∃ c, pickMaxFirst f l = some c ∧ c ∈ l ∧ (∀ u ∈ l, f u ≤ f c) ∧
      ∃ l1 l2, l = l1 ++ c :: l2 ∧ ∀ u ∈ l1, f u < f c := by
  cases l with
  | nil => exact absurd rfl hl
  | cons t ts =>
      obtain ⟨c, hc⟩ : ∃ c, ts.foldl (fun best x => if f best < f x then x else best) t = c :=
        ⟨_, rfl⟩
      refine ⟨c, congrArg some hc, ?_⟩
      rcases foldl_max_spec f ts t c hc with ⟨hr, hmax⟩ | ⟨l1, l2, heq, hlt, h1, h2⟩
      · refine ⟨by rw [hr]; exact List.mem_cons_self t ts, ?_, [], ts,
          by rw [hr]; rfl, by simp⟩
        intro u hu
        rcases List.mem_cons.mp hu with rfl | hu
        · rw [hr]
        · rw [hr]
          exact hmax u hu
      · refine ⟨?_, ?_, t :: l1, l2, ?_, ?_⟩
        · rw [heq]
          exact List.mem_cons_of_mem t (by simp)
        · intro u hu
          rcases List.mem_cons.mp hu with rfl | hu
          · exact le_of_lt hlt
          · rw [heq] at hu
            rcases List.mem_append.mp hu with hu | hu
            · exact le_of_lt (h1 u hu)
            · rcases List.mem_cons.mp hu with rfl | hu
              · exact le_rfl
              · exact h2 u hu
        · rw [heq]
          rfl
        · intro u hu
          rcases List.mem_cons.mp hu with rfl | hu
          · exact hlt
          · exact h1 u hu

/-- C8: `get_swarming_recommendation` returns nothing iff no ready task is
BACKWARD-direction (equivalently: a ready non-SUPPORT SOFTWARE task);
otherwise it returns the name and recommendation string of the backward ready
task whose hardware-dependency impact `get_target_hw_impact` is maximal,
ties resolved in favor of the earliest-queued task. -/
theorem swarming_spec (g : DependencyGraph) :
    (get_swarming_recommendation g = none ↔
      ¬ ∃ t ∈ get_ready_tasks g, t.category ≠ TaskCategory.support ∧
          t.team = TeamType.software) ∧
    (backwardReady g ≠ [] →
      ∃ c, get_swarming_backward_task g (backwardReady g) = some c ∧
        c ∈ backwardReady g ∧
        (∀ u ∈ backwardReady g,
          get_target_hw_impact g u ≤ get_target_hw_impact g c) ∧
        (∃ l1 l2, backwardReady g = l1 ++ c :: l2 ∧
          ∀ u ∈ l1, get_target_hw_impact g u < get_target_hw_impact g c) ∧
        get_swarming_recommendation g = some (c.name,
          "Build Test Jig for " ++ c.name ++ " (Validates " ++
            firstDepName g c.dependencies "Hardware" ++ ")")) := by
  constructor
  · unfold get_swarming_recommendation
    cases hbq : backwardReady g with
    | nil =>
        simp only [get_swarming_backward_task, pickMaxFirst]
        constructor
        · intro _ ⟨t, ht, hcond⟩
          have hmem : t ∈ backwardReady g := by
            unfold backwardReady
            rw [List.mem_filter]
            exact ⟨ht, decide_eq_true ((classify_eq_backward t).mpr hcond)⟩
          rw [hbq] at hmem
          simp at hmem
        · intro _
          trivial
    | cons t ts =>
        simp only [get_swarming_backward_task, pickMaxFirst]
        constructor
        · intro h; simp at h
        · intro h
          exfalso
          refine h ⟨t, ?_, ?_⟩
          · have hmem : t ∈ backwardReady g := by
              rw [hbq]; exact List.mem_cons_self t ts
            unfold backwardReady at hmem
            exact (List.mem_filter.mp hmem).1
          · have hmem : t ∈ backwardReady g := by
              rw [hbq]; exact List.mem_cons_self t ts
            unfold backwardReady at hmem
            have := (List.mem_filter.mp hmem).2
            exact (classify_eq_backward t).mp (of_decide_eq_true this)
  · intro hne
    obtain ⟨c, hpick, hmem, hmax, hfirst⟩ :=
      pickMaxFirst_spec (get_target_hw_impact g) (backwardReady g) hne
    refine ⟨c, hpick, hmem, hmax, hfirst, ?_⟩
    unfold get_swarming_recommendation
    rw [show get_swarming_backward_task g (backwardReady g) = some c from hpick]

/-- Witness for C8: in `gSw` the single ready software validator `S` is
selected and recommended against its hardware target `Leg`; the none-case is
exercised on `gChain` (whose only ready task is hardware). -/
theorem swarming_spec_witness :
    (get_swarming_recommendation gChain = none ↔
      ¬ ∃ t ∈ get_ready_tasks gChain, t.category ≠ TaskCategory.support ∧
          t.team = TeamType.software) ∧
    (∃ c, get_swarming_backward_task gSw (backwardReady gSw) = some c ∧
       c ∈ backwardReady gSw ∧
       (∀ u ∈ backwardReady gSw,
         get_target_hw_impact gSw u ≤ get_target_hw_impact gSw c) ∧
       (∃ l1 l2, backwardReady gSw = l1 ++ c :: l2 ∧
         ∀ u ∈ l1, get_target_hw_impact gSw u < get_target_hw_impact gSw c) ∧
       get_swarming_recommendation gSw = some (c.name,
         "Build Test Jig for " ++ c.name ++ " (Validates " ++
           firstDepName gSw c.dependencies "Hardware" ++ ")")) :=
  ⟨(swarming_spec gChain).1, (swarming_spec gSw).2 (by decide)⟩

/-! ### C6: the INFRASTRUCTURE lane is never emitted -/

theorem classify_cases (t : Task) :
    classify_task_direction t = "SUPPORT" ∨
    classify_task_direction t = "FORWARD" ∨
    classify_task_direction t = "BACKWARD" := by
  unfold classify_task_direction
  by_cases hsup : t.category = TaskCategory.support
  · rw [if_pos hsup]
    exact Or.inl rfl
  · rw [if_neg hsup]
    by_cases hhw : t.team = TeamType.hardware
    · rw [if_pos hhw]
      exact Or.inr (Or.inl rfl)
    · rw [if_neg hhw]
      exact Or.inr (Or.inr rfl)

theorem partition_infra_nil :
    ∀ (l : List Task) (acc : List Task × List Task × List Task × List Task),
      (l.foldl (fun acc task =>
        let d := classify_task_direction task
        if d = "BACKWARD" then (acc.1 ++ [task], acc.2.1, acc.2.2.1, acc.2.2.2)
        else if d = "SUPPORT" then (acc.1, acc.2.1 ++ [task], acc.2.2.1, acc.2.2.2)
        else if d = "FORWARD" then (acc.1, acc.2.1, acc.2.2.1 ++ [task], acc.2.2.2)
        else if task.category = TaskCategory.infrastructure then
          (acc.1, acc.2.1, acc.2.2.1, acc.2.2.2 ++ [task])
        else acc) acc).2.2.2 = acc.2.2.2 := by
  intro l
  induction l with
  | nil => intro acc; rfl
  | cons t l ih =>
      intro acc
      rw [List.foldl_cons]
      rw [ih]
      rcases classify_cases t with hd | hd | hd
      · simp [hd]
      · simp [hd]
      · simp [hd]

theorem infraQueueOf_nil (g : DependencyGraph) : infraQueueOf g = [] := by
  unfold infraQueueOf partitionReady
  exact partition_infra_nil (get_ready_tasks g) ([], [], [], [])

theorem infraLines_of_nil (report4 : List RLine) : infraLines [] report4 = [] := by
  unfold infraLines
  simp

/-- C6 (code_bug): no run of the scheduler ever emits an INFRASTRUCTURE lane
line.  The `elif task.category == INFRASTRUCTURE` branch of the partition
loop is unreachable because `classify_task_direction` always returns one of
SUPPORT/FORWARD/BACKWARD, so the infrastructure queue is always empty (and
the lane guard `not report or report[-1].startswith(lock)` is never true
either). -/
theorem infrastructure_lane_never_emitted :
    ∀ (g : DependencyGraph) (budget : ℚ),
      ((run_scheduler g budget).all fun r => !(isInfraLine r)) = true := by
  intro g budget
  rw [List.all_eq_true]
  intro r hr
  unfold run_scheduler at hr
  dsimp only [] at hr
  rw [infraQueueOf_nil, infraLines_of_nil, List.append_nil] at hr
  split at hr
  · rcases List.mem_singleton.mp hr with rfl
    rfl
  · rcases List.mem_append.mp hr with hr | hr
    · rcases List.mem_append.mp hr with hr | hr
      · rcases List.mem_append.mp hr with hr | hr
        · rcases List.mem_singleton.mp hr with rfl
          rfl
        · unfold backwardLines at hr
          split at hr
          · simp at hr
          · rcases List.mem_cons.mp hr with rfl | hr
            · rfl
            · rcases List.mem_append.mp hr with hr | hr
              · obtain ⟨t, -, rfl⟩ := List.mem_map.mp hr
                rfl
              · rcases List.mem_singleton.mp hr with rfl
                rfl
      · unfold supportLines at hr
        split at hr
        · simp at hr
        · rcases List.mem_append.mp hr with hr | hr
          · rcases List.mem_append.mp hr with hr | hr
            · rcases List.mem_cons.mp hr with rfl | hr
              · rfl
              · obtain ⟨t, -, rfl⟩ := List.mem_map.mp hr
                rfl
            · split at hr
              · split at hr
                · rcases List.mem_cons.mp hr with rfl | hr
                  · rfl
                  · rcases List.mem_cons.mp hr with rfl | hr
                    · rfl
                    · rcases List.mem_singleton.mp hr with rfl
                      rfl
                · simp at hr
              · simp at hr
          · rcases List.mem_singleton.mp hr with rfl
            rfl
    · unfold forwardLines at hr
      split at hr
      · simp at hr
      · rcases List.mem_append.mp hr with hr | hr
        · split at hr
          · rcases List.mem_cons.mp hr with rfl | hr
            · rfl
            · rcases List.mem_singleton.mp hr with rfl
              rfl
          · rcases List.mem_cons.mp hr with rfl | hr
            · rfl
            · obtain ⟨t, -, rfl⟩ := List.mem_map.mp hr
              unfold forwardLine
              dsimp only []
              split
              · rfl
              · split
                · rfl
                · rfl
        · rcases List.mem_singleton.mp hr with rfl
          rfl

/-! ### C5: FORWARD-lane gating and risk bucketing -/

theorem run_scheduler_eq (g : DependencyGraph) (budget : ℚ) :
    run_scheduler g budget =
      [RLine.riskSummary (calculate_risk_inventory g) budget
         (decide (budget ≤ calculate_risk_inventory g))] ++
      backwardLines g (backwardQueueOf g) ++
      supportLines g (backwardQueueOf g) (supportQueueOf g)
        (decide (budget ≤ calculate_risk_inventory g)) ++
      forwardLines g (forwardQueueOf g)
        (decide (budget ≤ calculate_risk_inventory g)) := by
  unfold run_scheduler
  dsimp only []
  rw [infraQueueOf_nil, infraLines_of_nil, List.append_nil]
  rw [if_neg (by simp)]

theorem backwardLines_no_forward {g : DependencyGraph} {bq : List Task} :
    ∀ r ∈ backwardLines g bq, isForwardLaneEntry r = false := by
  intro r hr
  unfold backwardLines at hr
  split at hr
  · simp at hr
  · rcases List.mem_cons.mp hr with rfl | hr
    · rfl
    · rcases List.mem_append.mp hr with hr | hr
      · obtain ⟨t, -, rfl⟩ := List.mem_map.mp hr
        rfl
      · rcases List.mem_singleton.mp hr with rfl
        rfl

theorem supportLines_no_forward {g : DependencyGraph} {bq sq : List Task}
    {e : Bool} : ∀ r ∈ supportLines g bq sq e, isForwardLaneEntry r = false := by
  intro r hr
  unfold supportLines at hr
  split at hr
  · simp at hr
  · rcases List.mem_append.mp hr with hr | hr
    · rcases List.mem_append.mp hr with hr | hr
      · rcases List.mem_cons.mp hr with rfl | hr
        · rfl
        · obtain ⟨t, -, rfl⟩ := List.mem_map.mp hr
          rfl
      · split at hr
        · split at hr
          · rcases List.mem_cons.mp hr with rfl | hr
            · rfl
            · rcases List.mem_cons.mp hr with rfl | hr
              · rfl
              · rcases List.mem_singleton.mp hr with rfl
                rfl
          · simp at hr
        · simp at hr
    · rcases List.mem_singleton.mp hr with rfl
      rfl

theorem forwardLines_true_no_forward {g : DependencyGraph} {fq : List Task} :
    ∀ r ∈ forwardLines g fq true, isForwardLaneEntry r = false := by
  intro r hr
  unfold forwardLines at hr
  split at hr
  · simp at hr
  · rcases List.mem_append.mp hr with hr | hr
    · simp only [if_true] at hr
      rcases List.mem_cons.mp hr with rfl | hr
      · rfl
      · rcases List.mem_singleton.mp hr with rfl
        rfl
    · rcases List.mem_singleton.mp hr with rfl
      rfl

theorem forwardLines_exceeded_eq {g : DependencyGraph} {fq : List Task}
    (hfq : fq ≠ []) :
    forwardLines g fq true =
      [RLine.forwardBlockedHeader, RLine.forwardBlockedReason, RLine.blank] := by
  unfold forwardLines
  rw [if_neg hfq]
  rfl

theorem forwardLines_ok_eq {g : DependencyGraph} {fq : List Task}
    (hfq : fq ≠ []) :
    forwardLines g fq false =
      RLine.forwardHeader :: (sortByImpactDesc g fq).map (forwardLine g) ++
        [RLine.blank] := by
  unfold forwardLines
  rw [if_neg hfq]
  rfl

/-- C5: when the risk inventory meets the budget and the forward queue is
non-empty, the report carries the two blocked lines and no forward-lane
header or per-task entry of any kind; when the inventory is under budget,
every forward-queue task appears with the action selected by its scrap risk
score: HOLD above 80, TENTATIVE in (50, 80], START at or below 50 (the
START/TENTATIVE lines carry the micro-batch flag). -/
theorem forward_gating (g : DependencyGraph) (budget : ℚ) :
    ((budget ≤ calculate_risk_inventory g → forwardQueueOf g ≠ [] →
      RLine.forwardBlockedHeader ∈ run_scheduler g budget ∧
      RLine.forwardBlockedReason ∈ run_scheduler g budget ∧
      (∀ r ∈ run_scheduler g budget, isForwardLaneEntry r = false)) ∧
    (calculate_risk_inventory g < budget →
      ∀ t ∈ forwardQueueOf g,
        (80 < calculate_scrap_risk_score g t →
          RLine.forwardHold t.name t.id
            (calculate_downstream_dependencies g t.id)
            (calculate_scrap_risk_score g t) ∈ run_scheduler g budget) ∧
        (50 < calculate_scrap_risk_score g t →
          calculate_scrap_risk_score g t ≤ 80 →
          RLine.forwardTentative t.name t.id
            (calculate_downstream_dependencies g t.id)
            (calculate_scrap_risk_score g t)
            (microBatch g.tasks t) ∈ run_scheduler g budget) ∧
        (calculate_scrap_risk_score g t ≤ 50 →
          RLine.forwardStart t.name t.id
            (calculate_downstream_dependencies g t.id)
            (microBatch g.tasks t) ∈ run_scheduler g budget))) := by
  constructor
  · intro hexc hfq
    have hb : decide (budget ≤ calculate_risk_inventory g) = true :=
      decide_eq_true hexc
    rw [run_scheduler_eq, hb]
    refine ⟨?_, ?_, ?_⟩
    · refine List.mem_append.mpr (Or.inr ?_)
      rw [forwardLines_exceeded_eq hfq]
      simp
    · refine List.mem_append.mpr (Or.inr ?_)
      rw [forwardLines_exceeded_eq hfq]
      simp
    · intro r hr
      rcases List.mem_append.mp hr with hr | hr
      · rcases List.mem_append.mp hr with hr | hr
        · rcases List.mem_append.mp hr with hr | hr
          · rcases List.mem_singleton.mp hr with rfl
            rfl
          · exact backwardLines_no_forward r hr
        · exact supportLines_no_forward r hr
      · exact forwardLines_true_no_forward r hr
  · intro hlt t ht
    have hb : decide (budget ≤ calculate_risk_inventory g) = false :=
      decide_eq_false (not_le.mpr hlt)
    have hfq : forwardQueueOf g ≠ [] := by
      intro h
      rw [h] at ht
      simp at ht
    have hline : forwardLine g t ∈ run_scheduler g budget := by
      rw [run_scheduler_eq, hb]
      refine List.mem_append.mpr (Or.inr ?_)
      rw [forwardLines_ok_eq hfq]
      refine List.mem_cons_of_mem _ (List.mem_append.mpr (Or.inl ?_))
      refine List.mem_map.mpr ⟨t, ?_, rfl⟩
      unfold sortByImpactDesc
      exact (List.Perm.mem_iff (List.perm_insertionSort _ _)).mpr ht
    refine ⟨?_, ?_, ?_⟩
    · intro h80
      have : forwardLine g t = RLine.forwardHold t.name t.id
          (calculate_downstream_dependencies g t.id)
          (calculate_scrap_risk_score g t) := by
        unfold forwardLine
        rw [if_pos h80]
      rw [← this]
      exact hline
    · intro h50 h80
      have : forwardLine g t = RLine.forwardTentative t.name t.id
          (calculate_downstream_dependencies g t.id)
          (calculate_scrap_risk_score g t) (microBatch g.tasks t) := by
        unfold forwardLine
        rw [if_neg (not_lt.mpr h80), if_pos h50]
      rw [← this]
      exact hline
    · intro h50
      have : forwardLine g t = RLine.forwardStart t.name t.id
          (calculate_downstream_dependencies g t.id) (microBatch g.tasks t) := by
        unfold forwardLine
        rw [if_neg (not_lt.mpr (le_trans h50 (by norm_num))),
          if_neg (not_lt.mpr h50)]
      rw [← this]
      exact hline

theorem riskInventory_gHSS : calculate_risk_inventory gHSS = mkRat 9 10 := by
  simp [calculate_risk_inventory, gHSS, tH, tS1, tS2, mkTask]

theorem scrapRisk_gHSS_tH : calculate_scrap_risk_score gHSS tH = 0 := by
  simp [calculate_scrap_risk_score, tH, mkTask]

/-- Witness for C5: with budget 1/2 the inventory of `gHSS` (9/10) is over
budget and the forward lane is blocked; with budget 2 it is under budget and
the forward task `H` (scrap risk 0) is emitted with a START action. -/
theorem forward_gating_witness :
    RLine.forwardBlockedHeader ∈ run_scheduler gHSS (mkRat 1 2) ∧
    (∀ r ∈ run_scheduler gHSS (mkRat 1 2), isForwardLaneEntry r = false) ∧
    RLine.forwardStart tH.name tH.id
      (calculate_downstream_dependencies gHSS tH.id)
      (microBatch gHSS.tasks tH) ∈ run_scheduler gHSS 2 := by
  have h1 : mkRat 1 2 ≤ calculate_risk_inventory gHSS := by
    rw [riskInventory_gHSS]
    decide
  have h2 : calculate_risk_inventory gHSS < 2 := by
    rw [riskInventory_gHSS]
    decide
  have hp1 := (forward_gating gHSS (mkRat 1 2)).1 h1 (by decide)
  have hp2 := ((forward_gating gHSS 2).2 h2 tH (by decide)).2.2
    (by rw [scrapRisk_gHSS_tH]; norm_num)
  exact ⟨hp1.1, hp1.2.2, hp2⟩

end DailyDigest
